import Mathlib

/-!
# Verification of the llm-wars streaming orchestrator

Shallow embedding of the `llm-wars` repository's core logic:

* the `/api/generate` request handler (`POST` in the generate route):
  body validation (`BodySchema`), the embedding-model guard, temperature
  normalization, the per-model worker `streamOneModel` (SSE parse loop,
  `flushEventData`, the non-streaming fallback, `markModelDone`), and the
  orchestration state (`write`, `safeEnd`, `doneCount`);
* the client page's stream reconstructor (`onSubmit`): NDJSON line
  buffering and the per-model fold of `delta` / `usage` / terminal events.

Modelling conventions:
* Strings are processed as `List Char`; `TextDecoder` byte decoding is
  treated as faithful, so network chunks are modelled as strings.
* `Date.now()` is modelled as a logical clock that ticks once per emitted
  event.  No verified claim depends on the numeric values of `ts`,
  `ttfbMs`, `latencyMs` or `totalMs`; the `ts` field is omitted from the
  event model and the latency-like payload fields carry clock readings.
* `JSON.parse` of an upstream SSE payload, of the fallback response body
  and of an NDJSON line is modelled by abstract decode functions
  (`String → Option _`); a `none` result models malformed JSON, which the
  source drops silently.  All theorems quantify over the decoder.
* `Number.parseFloat` is modelled faithfully for the strings the route
  can receive: the ECMAScript leading-whitespace set (WhiteSpace and
  LineTerminator, `jsWhitespace`), an optional sign, the `Infinity`
  production (a non-`NaN`, non-finite result, `JsFloat`), and decimal
  literals with optional fraction and exponent; `none` models `NaN`.
  The clamping `if`s send `Infinity` to `2` and `-Infinity` to `0`
  (`clampJs`), exactly as the comparisons do in JS.
* The single-threaded event-loop interleaving of the concurrent workers
  is over-approximated by an arbitrary per-event interleaving (a
  schedule); every property proved over all schedules holds in
  particular for the coarser interleavings the JS runtime can produce.
-/

set_option maxHeartbeats 1000000

namespace LlmWars

/-! ## String utilities (JS built-ins used by the source) -/

/-- JS `String.prototype.startsWith`, over character lists. -/
def charsStartWith : List Char → List Char → Bool
  | _, [] => true
  | [], _ :: _ => false
  | c :: cs, p :: ps => c == p && charsStartWith cs ps

/-- JS `String.prototype.includes`, over character lists. -/
def charsContain : List Char → List Char → Bool
  | [], pat => charsStartWith [] pat
  | c :: cs, pat => charsStartWith (c :: cs) pat || charsContain cs pat

/-- JS `String.prototype.includes`. -/
def strIncludes (s pat : String) : Bool := charsContain s.data pat.data

/-- JS `String.prototype.toLowerCase` (ASCII-adequate model). -/
def strToLower (s : String) : String := String.mk (s.data.map Char.toLower)

/-- JS `String.prototype.trim`: strip leading and trailing whitespace
(including `\r`; ASCII-adequate model of the Unicode definition). -/
def trimChars (l : List Char) : List Char :=
  ((l.dropWhile Char.isWhitespace).reverse.dropWhile Char.isWhitespace).reverse

/-- `trim` on strings. -/
def trimStr (s : String) : String := String.mk (trimChars s.data)

/-- Split a character stream into the list of complete (newline-terminated)
lines and the trailing partial line.  This models the splitting both of the
server's SSE loop (`buffer.split(/\r?\n/)` followed by `rawLine.trim()` on
each element — splitting at `\n` and trimming afterwards yields the same
trimmed lines, since `trim` removes a carried `\r`) and of the client's
`buffer.indexOf("\n")` loop; in both, the element after the last newline is
held back as the new buffer. -/
def lineSplit : List Char → List (List Char) × List Char
  | [] => ([], [])
  | c :: cs =>
    let r := lineSplit cs
    if c = '\n' then ([] :: r.1, r.2)
    else
      match r with
      | ([], rest) => ([], c :: rest)
      | (l :: ls, rest) => ((c :: l) :: ls, rest)

/-- Concatenation of a list of transport chunks, as characters. -/
def concatChunks (chunks : List String) : List Char := (chunks.map String.data).flatten

/-! ## `Number.parseFloat` model -/

/-- Numeric value of a digit string (most significant first). -/
def digitsToNat (ds : List Char) : Nat := ds.foldl (fun a c => a * 10 + (c.toNat - 48)) 0

/-- Exponent part of a JS float literal.  A malformed exponent (no digits
after `e`/`E`) is ignored — `parseFloat("1e") = 1` — which is modelled by
returning exponent `0`. -/
def parseExponent (l : List Char) : Int :=
  match l with
  | 'e' :: rest | 'E' :: rest =>
    match rest with
    | '+' :: ds =>
      let d := ds.takeWhile Char.isDigit
      if d = [] then 0 else (digitsToNat d : Int)
    | '-' :: ds =>
      let d := ds.takeWhile Char.isDigit
      if d = [] then 0 else -(digitsToNat d : Int)
    | ds =>
      let d := ds.takeWhile Char.isDigit
      if d = [] then 0 else (digitsToNat d : Int)
  | _ => 0

/-- The characters JS `parseFloat` skips at the start of its input:
ECMAScript WhiteSpace — TAB, VT (U+000B), FF (U+000C), SP, NBSP (U+00A0),
ZWNBSP (U+FEFF) and the Unicode space separators (Zs) — together with
LineTerminator — LF, CR, LS (U+2028), PS (U+2029). -/
def jsWhitespace (c : Char) : Bool :=
  c == '\t' || c == '\n' || c.toNat == 0xB || c.toNat == 0xC || c == '\r' ||
  c == ' ' || c.toNat == 0xA0 || c.toNat == 0xFEFF || c.toNat == 0x1680 ||
  (decide (0x2000 ≤ c.toNat) && decide (c.toNat ≤ 0x200A)) ||
  c.toNat == 0x2028 || c.toNat == 0x2029 || c.toNat == 0x202F ||
  c.toNat == 0x205F || c.toNat == 0x3000

/-- A JS `Number.parseFloat` result that is not `NaN`: a finite value, or
one of the signed infinities produced by the `Infinity` literal (which is
not `NaN`, so the route's `Number.isNaN` check lets it through). -/
inductive JsFloat where
  | finite (q : ℚ)
  | posInf
  | negInf
  deriving DecidableEq

/-- Model of JS `Number.parseFloat` (the `StrDecimalLiteral` prefix
grammar): skip leading JS whitespace, optional sign, then either the
`Infinity` literal or decimal digits with optional fraction and exponent,
parsing the longest valid prefix; `none` models `NaN`. -/
def parseFloatChars (l : List Char) : Option JsFloat :=
  let l1 := l.dropWhile jsWhitespace
  let neg : Bool := match l1 with
    | '-' :: _ => true
    | _ => false
  let l2 : List Char := match l1 with
    | '-' :: r => r
    | '+' :: r => r
    | _ => l1
  if charsStartWith l2 ("Infinity".data) then
    some (if neg then JsFloat.negInf else JsFloat.posInf)
  else
    let sgn : ℚ := if neg then -1 else 1
    let ip := l2.takeWhile Char.isDigit
    let l3 := l2.dropWhile Char.isDigit
    match l3 with
    | '.' :: r =>
      let fp := r.takeWhile Char.isDigit
      if ip = [] ∧ fp = [] then none
      else
        let rest := r.dropWhile Char.isDigit
        let mant : ℚ := (digitsToNat ip : ℚ) + (digitsToNat fp : ℚ) / ((10 : ℚ) ^ fp.length)
        some (JsFloat.finite (sgn * mant * (10 : ℚ) ^ parseExponent rest))
    | _ =>
      if ip = [] then none
      else some (JsFloat.finite (sgn * (digitsToNat ip : ℚ) * (10 : ℚ) ^ parseExponent l3))

/-- `Number.parseFloat` on strings. -/
def parseFloat? (s : String) : Option JsFloat := parseFloatChars s.data

/-! ## Request body, validation, temperature -/

/-- The `temperature` field of the request body: `z.union([z.number(),
z.string()]).optional()`. -/
inductive TempRaw where
  | num (x : ℚ)
  | str (s : String)
  | absent
  deriving DecidableEq

/-- A JSON request body that matched the overall object shape.  `none` at
the `handlePost` call site models a body that failed `req.json()`. -/
structure Body where
  prompt : String
  models : List String
  temperature : TempRaw
  deriving DecidableEq

/-- `BodySchema.parse`: non-empty prompt, at least one model, every model
identifier non-empty.  The temperature union accepts any number or any
string, so validation never inspects its contents. -/
def validateBody (b : Body) : Bool :=
  decide (1 ≤ b.prompt.length) && decide (1 ≤ b.models.length)
    && b.models.all (fun m => decide (1 ≤ m.length))

/-- The temperature normalization block of `POST`: default `0.7`, numbers
taken as-is, strings via `parseFloat` (keeping the default when the parse
is `NaN`), then the two clamping `if`s. -/
def clampTemp (t : ℚ) : ℚ := if t < 0 then 0 else if t > 2 then 2 else t

/-- The two clamping `if`s applied to a JS number that may be infinite:
`Infinity < 0` is false and `Infinity > 2` is true, so `Infinity` clamps
to `2`; `-Infinity < 0` is true, so `-Infinity` clamps to `0`. -/
def clampJs : JsFloat → ℚ
  | .finite q => clampTemp q
  | .posInf => 2
  | .negInf => 0

/-- Resolved effective temperature of a request: `temperature = 0.7`
unless the field is a number, or a string whose `parseFloat` is not
`NaN`; then the clamping `if`s. -/
def resolveTemperature : TempRaw → ℚ
  | .num x => clampTemp x
  | .str s =>
    match parseFloat? s with
    | none => clampTemp (7 / 10)
    | some v => clampJs v
  | .absent => clampTemp (7 / 10)

/-- Whether a model identifier is caught by the generate route's embedding
guard: `m.toLowerCase().includes("embed")`. -/
def isEmbeddingModel (m : String) : Bool := strIncludes (strToLower m) "embed"

/-- Outcome of the `POST` handler before/at stream creation. -/
inductive PostResult where
  /-- `req.json()` threw: HTTP 400 `Invalid JSON body`. -/
  | badJson
  /-- `BodySchema.parse` threw: HTTP 400 `Invalid request body`. -/
  | invalidBody
  /-- The embedding guard fired: HTTP 400, body lists the bad models. -/
  | embeddingRejected (models : List String)
  /-- The streaming response is created with these models and this
  resolved temperature; this is the only outcome that starts workers. -/
  | streamResponse (models : List String) (temperature : ℚ)
  deriving DecidableEq

/-- HTTP status of each `PostResult`. -/
def httpStatus : PostResult → Nat
  | .badJson => 400
  | .invalidBody => 400
  | .embeddingRejected _ => 400
  | .streamResponse _ _ => 200

/-- The pre-stream portion of the `POST` handler: JSON parse, schema
validation, embedding guard, temperature resolution. -/
def handlePost : Option Body → PostResult
  | none => .badJson
  | some b =>
    if !validateBody b then .invalidBody
    else
      let bad := b.models.filter isEmbeddingModel
      if !bad.isEmpty then .embeddingRejected bad
      else .streamResponse b.models (resolveTemperature b.temperature)

/-! ## Normalized events -/

/-- The normalized NDJSON events written to the response body.  The `ts`
wall-clock field carried by every event in the source is omitted; the
latency-style payload fields (`ttfbMs`, `latencyMs`, `totalMs`) carry
logical-clock readings (see the file header). -/
inductive SEvent where
  | start (models : List String) (temperature : ℚ)
  | modelStart (modelId : String)
  | ttfb (modelId : String) (ttfbMs : Nat)
  | delta (modelId : String) (text : String)
  | usage (modelId : String)
      (promptTokens completionTokens totalTokens : Option Int)
  | modelDone (modelId : String) (latencyMs : Nat)
  | errorEvt (modelId : String) (error : String) (latencyMs : Nat)
  | ping
  | endEvt (totalMs : Nat)
  deriving DecidableEq

/-- The model identifier an event carries (`none` for `start`, `ping`,
`end`). -/
def evId : SEvent → Option String
  | .start _ _ => none
  | .ping => none
  | .endEvt _ => none
  | .modelStart m => some m
  | .ttfb m _ => some m
  | .delta m _ => some m
  | .usage m _ _ _ => some m
  | .modelDone m _ => some m
  | .errorEvt m _ _ => some m

/-- Terminal events (`model-done` or `error`). -/
def terminalB : SEvent → Bool
  | .modelDone _ _ => true
  | .errorEvt _ _ _ => true
  | _ => false

/-- `model-start` events. -/
def msB : SEvent → Bool
  | .modelStart _ => true
  | _ => false

/-- `start` events. -/
def isStartB : SEvent → Bool
  | .start _ _ => true
  | _ => false

/-- `end` events. -/
def isEndB : SEvent → Bool
  | .endEvt _ => true
  | _ => false

/-- `ttfb` events. -/
def ttfbB : SEvent → Bool
  | .ttfb _ _ => true
  | _ => false

/-- `delta` events. -/
def deltaB : SEvent → Bool
  | .delta _ _ => true
  | _ => false

/-- `model-done` events. -/
def mdB : SEvent → Bool
  | .modelDone _ _ => true
  | _ => false

/-- `error` events. -/
def errB : SEvent → Bool
  | .errorEvt _ _ _ => true
  | _ => false

/-- `model-start` event for a given model identifier. -/
def msFor (id : String) (e : SEvent) : Bool := msB e && (evId e == some id)

/-- Terminal event for a given model identifier. -/
def termFor (id : String) (e : SEvent) : Bool := terminalB e && (evId e == some id)

/-! ## SSE frame parser

The parse loop of `streamOneModel`: a rolling text `buffer`, split into
lines per received chunk with the trailing partial line held back, each
complete line trimmed; blank lines flush the accumulated `data:` parts
(joined with `"\n"` and trimmed) to `flushEventData`; `data:` lines have
the 5-character prefix stripped and are trimmed and accumulated; other
lines (`id:`/`event:`/`retry:`) are ignored.  At end-of-input any
accumulated parts are flushed, and then a trailing buffer that starts
with `data:` is flushed as one more payload. -/

/-- Parser state: the partial-line `buffer` and `eventBufferParts`. -/
structure SSEState where
  buffer : List Char
  parts : List (List Char)
  deriving DecidableEq

/-- Initial SSE parser state. -/
def sseInit : SSEState := ⟨[], []⟩

/-- `eventBufferParts.join("\n")`. -/
def joinParts : List (List Char) → List Char
  | [] => []
  | [p] => p
  | p :: ps => p ++ '\n' :: joinParts ps

/-- Process one complete, not yet trimmed line: first component is
`eventBufferParts`, second is the payloads flushed so far (in order). -/
def sseLineStep (st : List (List Char) × List (List Char)) (rawLine : List Char) :
    List (List Char) × List (List Char) :=
  let line := trimChars rawLine
  if line = [] then
    match st.1 with
    | [] => st
    | parts => ([], st.2 ++ [trimChars (joinParts parts)])
  else if charsStartWith line ("data:".data) then
    (st.1 ++ [trimChars (line.drop 5)], st.2)
  else st

/-- Feed one chunk: append to the buffer, split off the complete lines,
process them, keep the partial line.  Returns the payloads flushed by this
chunk, in order. -/
def feedChunk (st : SSEState) (chunk : List Char) : SSEState × List (List Char) :=
  let split := lineSplit (st.buffer ++ chunk)
  let folded := split.1.foldl sseLineStep (st.parts, [])
  (⟨split.2, folded.1⟩, folded.2)

/-- Feed a list of chunks in order, concatenating the flushed payloads. -/
def feedChunks (st : SSEState) : List String → SSEState × List (List Char)
  | [] => (st, [])
  | c :: cs =>
    let first := feedChunk st c.data
    let rest := feedChunks first.1 cs
    (rest.1, first.2 ++ rest.2)

/-- End-of-input flush: pending `eventBufferParts`, then a trailing
buffer that (after trimming) starts with `data:`. -/
def sseFinish (st : SSEState) : List (List Char) :=
  (match st.parts with
   | [] => []
   | parts => [trimChars (joinParts parts)]) ++
  (let b := trimChars st.buffer
   if charsStartWith b ("data:".data) then [trimChars (b.drop 5)] else [])

/-- The full payload sequence produced for an upstream byte stream that is
read to completion, including the end-of-input flush. -/
def sseParse (chunks : List String) : List String :=
  let fed := feedChunks sseInit chunks
  (fed.2 ++ sseFinish fed.1).map String.mk

/-- The payload sequence produced when the upstream read fails after the
given chunks: the end-of-input flush is skipped (the thrown error skips
the rest of the inner `try`). -/
def sseParsePartial (chunks : List String) : List String :=
  (feedChunks sseInit chunks).2.map String.mk

/-! ## Model worker (`streamOneModel`) -/

/-- The usage block of an upstream JSON payload, with every field-name
variant the source probes (`??` chains); `none` models an absent or
`null` field. -/
structure UsageJson where
  prompt_tokens : Option Int := none
  promptTokens : Option Int := none
  input_tokens : Option Int := none
  completion_tokens : Option Int := none
  completionTokens : Option Int := none
  output_tokens : Option Int := none
  total_tokens : Option Int := none
  totalTokens : Option Int := none
  total : Option Int := none
  deriving DecidableEq

/-- The fields of a parsed SSE JSON payload that `flushEventData` probes
via optional chaining.  An abstract decoder `String → Option ChunkJson`
models `JSON.parse` plus those field accesses; `none` models malformed
JSON (silently dropped). -/
structure ChunkJson where
  /-- `chunk?.choices?.[0]?.delta?.content` -/
  deltaContent : Option String := none
  /-- `chunk?.choices?.[0]?.delta?.reasoning_content` -/
  reasoningContent : Option String := none
  /-- `chunk?.choices?.[0]?.text` -/
  choiceText : Option String := none
  /-- `chunk?.choices?.[0]?.message?.content` -/
  messageContent : Option String := none
  /-- `chunk?.usage` -/
  usage : Option UsageJson := none
  deriving DecidableEq

/-- The delta-extraction chain: first non-nullish candidate, with `""` as
final default (`??` skips only null/undefined, so a present empty string
is taken and then fails the `if (delta)` truthiness test). -/
def extractDelta (c : ChunkJson) : String :=
  (c.deltaContent <|> c.reasoningContent <|> c.choiceText <|> c.messageContent).getD ""

/-- The `usage` event built from a usage block (`?? null` chains). -/
def usageEvent (m : String) (u : UsageJson) : SEvent :=
  .usage m (u.prompt_tokens <|> u.promptTokens <|> u.input_tokens)
    (u.completion_tokens <|> u.completionTokens <|> u.output_tokens)
    (u.total_tokens <|> u.totalTokens <|> u.total)

/-- A worker's local mutable state: its logical clock (`Date.now()`
readings relative to `modelStart`), the events it has passed to `write`,
and the `sawFirstToken` / `gotAnyToken` / `modelCompleted` flags. -/
structure WState where
  now : Nat
  events : List SEvent
  sawFirstToken : Bool
  gotAnyToken : Bool
  modelCompleted : Bool
  deriving DecidableEq

/-- Emit one event (the clock ticks once per emission). -/
def wWrite (s : WState) (e : SEvent) : WState :=
  { s with events := s.events ++ [e], now := s.now + 1 }

/-- `markModelDone`: at most once per worker; `error` with a message,
`model-done` otherwise, both carrying the elapsed latency. -/
def markModelDone (m : String) (err : Option String) (s : WState) : WState :=
  if s.modelCompleted then s
  else
    let s1 := match err with
      | some msg => wWrite s (.errorEvt m msg s.now)
      | none => wWrite s (.modelDone m s.now)
    { s1 with modelCompleted := true }

/-- `flushEventData`: ignore empty payloads, `[DONE]` takes the done
path, otherwise decode JSON (malformed payloads dropped), emit `ttfb` on
the first non-empty delta, then `delta`, then `usage` when present. -/
def flushEventData (decode : String → Option ChunkJson) (m : String)
    (s : WState) (dataStr : String) : WState :=
  if dataStr = "" then s
  else if dataStr = "[DONE]" then markModelDone m none s
  else
    match decode dataStr with
    | none => s
    | some ch =>
      let d := extractDelta ch
      let s1 :=
        if d = "" then s
        else
          let sa := if s.sawFirstToken then s
            else { wWrite s (.ttfb m s.now) with sawFirstToken := true }
          { wWrite sa (.delta m d) with gotAnyToken := true }
      match ch.usage with
      | some u => wWrite s1 (usageEvent m u)
      | none => s1

/-- Worker state after emitting `model-start`. -/
def wInit (m : String) : WState :=
  wWrite ⟨0, [], false, false, false⟩ (.modelStart m)

/-- The streaming phase of a worker: `model-start`, then every SSE
payload through `flushEventData` in order. -/
def streamPhase (decode : String → Option ChunkJson) (m : String)
    (payloads : List String) : WState :=
  payloads.foldl (flushEventData decode m) (wInit m)

/-- Behaviour of the upstream streaming call, as observed by the worker. -/
inductive UpstreamResult where
  /-- `!res.ok || !res.body` (or the fetch itself threw): the worker
  throws `HTTP <status>: …` before reading; `msg` is the thrown message. -/
  | fail (msg : String)
  /-- The body was read to completion, delivering these chunks. -/
  | ok (chunks : List String)
  /-- `reader.read()` threw after delivering these chunks; the
  end-of-input flush and the fallback block are skipped. -/
  | okPartial (chunks : List String) (msg : String)
  deriving DecidableEq

/-- Behaviour of the non-streaming fallback call. -/
inductive FallbackResult where
  /-- Non-ok status, or the response body failed to parse as JSON. -/
  | fail (msg : String)
  /-- Parsed response: `choices[0].message.content ?? choices[0].text ??
  ""` and the optional usage block. -/
  | ok (text : String) (usage : Option UsageJson)
  deriving DecidableEq

/-- One upstream HTTP request issued by a worker. -/
structure CallRec where
  prompt : String
  temperature : ℚ
  streaming : Bool
  deriving DecidableEq

/-- A worker's observable behaviour: the events passed to `write`, in
order, and the upstream calls it made. -/
structure WorkerOut where
  events : List SEvent
  calls : List CallRec
  deriving DecidableEq

/-- The non-streaming fallback block (reached only when the stream
yielded zero tokens): on failure, the normal failure path; on success,
the synthesized `ttfb`+`delta` (for non-empty text) and `usage`, then
the final `markModelDone()`. -/
def fallbackState (m : String) (s : WState) : FallbackResult → WState
  | .fail msg => markModelDone m (some msg) s
  | .ok text u =>
    let s1 :=
      if text = "" then s
      else
        let sa := if s.sawFirstToken then s
          else { wWrite s (.ttfb m s.now) with sawFirstToken := true }
        { wWrite sa (.delta m text) with gotAnyToken := true }
    let s2 := match u with
      | some uj => wWrite s1 (usageEvent m uj)
      | none => s1
    markModelDone m none s2

/-- The worker's final local state for each upstream behaviour. -/
def workerState (decode : String → Option ChunkJson) (m : String)
    (up : UpstreamResult) (fb : FallbackResult) : WState :=
  match up with
  | .fail msg => markModelDone m (some msg) (wInit m)
  | .okPartial chunks msg =>
    markModelDone m (some msg) (streamPhase decode m (sseParsePartial chunks))
  | .ok chunks =>
    let s := streamPhase decode m (sseParse chunks)
    if s.gotAnyToken then markModelDone m none s else fallbackState m s fb

/-- The upstream calls a worker makes: always the streaming call, plus
the non-streaming fallback call exactly when the stream completed with
zero tokens. -/
def workerCalls (decode : String → Option ChunkJson) (m prompt : String)
    (temp : ℚ) (up : UpstreamResult) : List CallRec :=
  match up with
  | .ok chunks =>
    if (streamPhase decode m (sseParse chunks)).gotAnyToken then [⟨prompt, temp, true⟩]
    else [⟨prompt, temp, true⟩, ⟨prompt, temp, false⟩]
  | _ => [⟨prompt, temp, true⟩]

/-- `streamOneModel`: the full worker for one model.  Keepalive `ping`
emission (timer-driven) is omitted; pings carry no model identifier and
none of the verified claims counts them. -/
def streamOneModel (decode : String → Option ChunkJson) (m prompt : String)
    (temp : ℚ) (up : UpstreamResult) (fb : FallbackResult) : WorkerOut :=
  ⟨(workerState decode m up fb).events, workerCalls decode m prompt temp up⟩

/-! ## Stream orchestrator -/

/-- Orchestration state for one request: the per-worker queues of events
not yet multiplexed onto the response, the response body `out` (events
successfully enqueued), the `ended` flag of `safeEnd`, and `doneCount`.

The interleaving of the concurrent workers is modelled by a schedule of
worker indices; each step takes the next event of the chosen worker
through `write` together with (for terminal events) the synchronous
`doneCount++` / `safeEnd` logic of `markModelDone`. -/
structure OrchState where
  queues : List (List SEvent)
  out : List SEvent
  ended : Bool
  doneCount : Nat
  deriving DecidableEq

/-- The shared `write`: `controller.enqueue` throws once the controller
is closed; the `try`/`catch` swallows the failure, modelled by leaving
the response unchanged. -/
def oWrite (s : OrchState) (e : SEvent) : OrchState :=
  if s.ended then s else { s with out := s.out ++ [e] }

/-- `safeEnd`: idempotent emission of the final `end` event (the
`totalMs` logical clock is the number of events written so far). -/
def oSafeEnd (s : OrchState) : OrchState :=
  if s.ended then s
  else { s with out := s.out ++ [.endEvt s.out.length], ended := true }

/-- One scheduling step: worker `i` (if it has a pending event) has its
next event written; a terminal event additionally runs `doneCount++` and,
when the count reaches the number of models, `safeEnd`. -/
def orchStep (s : OrchState) (i : Nat) : OrchState :=
  match s.queues.get? i with
  | some (e :: rest) =>
    let s1 := oWrite { s with queues := s.queues.set i rest } e
    if terminalB e then
      let s2 := { s1 with doneCount := s1.doneCount + 1 }
      if s2.queues.length ≤ s2.doneCount then oSafeEnd s2 else s2
    else s1
  | _ => s

/-- Initial orchestration state: `start` (with the model list and
resolved temperature) is written before any worker event. -/
def orchInit (models : List String) (temp : ℚ) (ws : List (List SEvent)) : OrchState :=
  ⟨ws, [.start models temp], false, 0⟩

/-- The event list of each worker of a request. -/
def workerEvents (decode : String → Option ChunkJson) (prompt : String) (temp : ℚ)
    (models : List String) (ups : List UpstreamResult) (fbs : List FallbackResult) :
    List (List SEvent) :=
  (models.zip (ups.zip fbs)).map
    (fun x => (streamOneModel decode x.1 prompt temp x.2.1 x.2.2).events)

/-- A complete request: `start`, the scheduled interleaving of the
workers, then the unconditional `safeEnd()` that follows
`Promise.allSettled` (the 120s watchdog `setTimeout(safeEnd, 120000)` is
also only registered at that point, and every later firing is a no-op by
idempotence). -/
def orchRun (decode : String → Option ChunkJson) (models : List String)
    (prompt : String) (temp : ℚ) (ups : List UpstreamResult)
    (fbs : List FallbackResult) (sched : List Nat) : OrchState :=
  oSafeEnd (sched.foldl orchStep
    (orchInit models temp (workerEvents decode prompt temp models ups fbs)))

/-! ## Client reconstructor

The `onSubmit` read loop of the page component: a rolling text buffer,
split at `"\n"` (`buffer.indexOf("\n")`), each complete line trimmed,
empty lines skipped, JSON-parsed (malformed lines dropped) and dispatched
on `evt.type` into the per-model `byModel` record.  On `end` the inner
line loop `break`s — lines already buffered after the `end` line are only
revisited when a further chunk arrives — and the trailing partial line is
dropped when the stream finishes.  `JSON.parse` + field access is
modelled by an abstract line decoder `String → Option SEvent`. -/

/-- The client's per-model `StreamState`. -/
structure StreamState where
  content : String
  ttfbMs : Option Nat := none
  latencyMs : Option Nat := none
  tokens : Option (Option Int × Option Int × Option Int) := none
  error : Option String := none
  isComplete : Bool := false
  deriving DecidableEq

/-- The `?? { content: "" }` default used on first reference. -/
def emptyStream : StreamState := { content := "" }

/-- Lookup in the `byModel` record (insertion-ordered association list). -/
def lookupModel : List (String × StreamState) → String → Option StreamState
  | [], _ => none
  | kv :: rest, id => if kv.1 == id then some kv.2 else lookupModel rest id

/-- `{ ...s, [id]: v }`: replace the entry in place, or append. -/
def setModel : List (String × StreamState) → String → StreamState →
    List (String × StreamState)
  | [], id, v => [(id, v)]
  | kv :: rest, id, v =>
    if kv.1 == id then (id, v) :: rest else kv :: setModel rest id v

/-- Whole client fold state: `byModel` plus `totalMs` (set by `end`). -/
structure ClientState where
  byModel : List (String × StreamState)
  totalMs : Option Nat := none
  deriving DecidableEq

/-- Initial client state (before any line is folded). -/
def clientInit : ClientState := ⟨[], none⟩

/-- Update one model's entry through the `?? { content: "" }` default. -/
def updModel (st : ClientState) (id : String) (f : StreamState → StreamState) :
    ClientState :=
  { st with byModel :=
      setModel st.byModel id (f ((lookupModel st.byModel id).getD emptyStream)) }

/-- The event dispatch of the client loop (`start` and `ping` have no
branch and are ignored; `end` additionally breaks the line loop, which is
handled in `runBufferAux`). -/
def applyClientEvent (st : ClientState) (e : SEvent) : ClientState :=
  match e with
  | .modelStart id => updModel st id (fun prev => { prev with isComplete := false })
  | .ttfb id ms => updModel st id (fun prev => { prev with ttfbMs := some ms })
  | .delta id txt => updModel st id (fun prev => { prev with content := prev.content ++ txt })
  | .usage id p c t => updModel st id (fun prev => { prev with tokens := some (p, c, t) })
  | .modelDone id ms =>
    updModel st id (fun prev => { prev with latencyMs := some ms, isComplete := true })
  | .errorEvt id msg ms =>
    updModel st id
      (fun prev => { prev with error := some msg, latencyMs := some ms, isComplete := true })
  | .endEvt n => { st with totalMs := some n }
  | .start _ _ => st
  | .ping => st

/-- The accumulated content shown for a model identifier. -/
def contentOf (st : ClientState) (id : String) : String :=
  ((lookupModel st.byModel id).map StreamState.content).getD ""

/-- One complete line without the `end`-break: trim, skip empty, decode
(drop malformed), dispatch. -/
def stepLine (p : String → Option SEvent) (st : ClientState) (l : List Char) :
    ClientState :=
  let t := trimChars l
  if t = [] then st
  else
    match p (String.mk t) with
    | some e => applyClientEvent st e
    | none => st

/-- Whether a raw line is a (non-blank) line that decodes to `end`. -/
def endLineB (p : String → Option SEvent) (l : List Char) : Bool :=
  let t := trimChars l
  if t = [] then false
  else
    match p (String.mk t) with
    | some (.endEvt _) => true
    | _ => false

/-- Reassemble the unprocessed tail of the buffer after a `break`: the
remaining complete lines keep their newlines, followed by the partial
line. -/
def rejoinLines : List (List Char) → List Char → List Char
  | [], r => r
  | l :: ls, r => l ++ '\n' :: rejoinLines ls r

/-- The inner `while ((idx = buffer.indexOf("\n")) !== -1)` loop over the
already-split complete lines `ls` (partial line `r` stays buffered): on a
decoded `end`, set `totalMs` and break, leaving the rest of the buffer
unconsumed. -/
def runBufferAux (p : String → Option SEvent) (st : ClientState) :
    List (List Char) → List Char → ClientState × List Char
  | [], r => (st, r)
  | l :: ls, r =>
    let t := trimChars l
    if t = [] then runBufferAux p st ls r
    else
      match p (String.mk t) with
      | some (.endEvt n) => (applyClientEvent st (.endEvt n), rejoinLines ls r)
      | some e => runBufferAux p (applyClientEvent st e) ls r
      | none => runBufferAux p st ls r

/-- One `reader.read()` delivery: append the chunk to the buffer and run
the line loop. -/
def clientStepChunk (p : String → Option SEvent) (s : ClientState × List Char)
    (chunk : String) : ClientState × List Char :=
  let split := lineSplit (s.2 ++ chunk.data)
  runBufferAux p s.1 split.1 split.2

/-- The whole read loop over a fragmented transport: fold the chunks,
then drop the trailing partial line when `done` arrives. -/
def clientRun (p : String → Option SEvent) (chunks : List String) : ClientState :=
  (chunks.foldl (clientStepChunk p) (clientInit, [])).1

/-- The text fragments of the `delta` events for one model, in order. -/
def deltaTexts (id : String) (evts : List SEvent) : List String :=
  evts.filterMap (fun e =>
    match e with
    | .delta i t => if i = id then some t else none
    | _ => none)

/-- The `delta` texts for one model carried by a list of raw lines
(after the client's trim / skip-empty / decode steps). -/
def lineDeltas (p : String → Option SEvent) (id : String) (ls : List (List Char)) :
    List String :=
  ls.filterMap (fun l =>
    let t := trimChars l
    if t = [] then none
    else
      match p (String.mk t) with
      | some (.delta i txt) => if i = id then some txt else none
      | _ => none)

/-! ## Specification-side predicates -/

/-- Concatenation of a list of strings. -/
def strConcat (l : List String) : String := String.mk ((l.map String.data).flatten)

/-- Well-formedness of one worker's emitted event list: it starts with
`model-start`, contains exactly one `model-start` and exactly one
terminal event, and every event carries this worker's model identifier. -/
def WOk (m : String) (l : List SEvent) : Prop :=
  (∃ tl, l = SEvent.modelStart m :: tl) ∧
  l.countP msB = 1 ∧ l.countP terminalB = 1 ∧ ∀ e ∈ l, evId e = some m

/-- Invariant of the worker's streaming phase, tying the emitted events
to the `sawFirstToken` / `gotAnyToken` / `modelCompleted` flags. -/
def WInv (m : String) (s : WState) : Prop :=
  (∃ tl, s.events = SEvent.modelStart m :: tl) ∧
  s.events.countP msB = 1 ∧
  s.events.countP errB = 0 ∧
  s.events.countP mdB = (if s.modelCompleted then 1 else 0) ∧
  s.events.countP ttfbB = (if s.sawFirstToken then 1 else 0) ∧
  (s.gotAnyToken = false → s.events.countP deltaB = 0) ∧
  s.sawFirstToken = s.gotAnyToken ∧
  (∀ e ∈ s.events, evId e = some m)

/-- How many events matching `p` the schedule has consumed from the
worker queues (`ws` are the full worker event lists, `qs` the still
pending suffixes). -/
def consumedP (p : SEvent → Bool) : List (List SEvent) → List (List SEvent) → Nat
  | [], _ => 0
  | _ :: _, [] => 0
  | w :: ws, q :: qs => (w.countP p - q.countP p) + consumedP p ws qs

/-- Total number of events matching `p` across all workers. -/
def sumP (p : SEvent → Bool) (ws : List (List SEvent)) : Nat :=
  (ws.map (List.countP p)).sum

/-- The orchestration invariant maintained by every schedule step. -/
structure OrchInv (models : List String) (temp : ℚ) (ws : List (List SEvent))
    (s : OrchState) : Prop where
  len_eq : s.queues.length = ws.length
  sfx : ∀ i q, s.queues.get? i = some q → ∃ w, ws.get? i = some w ∧ q <:+ w
  done_eq : s.doneCount = consumedP terminalB ws s.queues
  head_start : ∃ tl, s.out = SEvent.start models temp :: tl
  start_count : s.out.countP isStartB = 1
  live : s.ended = false →
    s.out.countP isEndB = 0 ∧
    ∀ p : SEvent → Bool, (∀ ms tq, p (.start ms tq) = false) →
      s.out.countP p = consumedP p ws s.queues
  closed : s.ended = true →
    (∀ i q, s.queues.get? i = some q → q.countP terminalB = 0) ∧
    (∀ id, s.out.countP (termFor id) = models.count id) ∧
    (∀ id, s.out.countP (msFor id) = models.count id) ∧
    s.out.countP isEndB = 1 ∧
    (∃ n l, s.out = l ++ [SEvent.endEvt n])

/-! # Theorems -/

/-! ## Line splitting -/

theorem lineSplit_nil : lineSplit [] = ([], []) := rfl

theorem lineSplit_cons (c : Char) (cs : List Char) :
    lineSplit (c :: cs) =
      if c = '\n' then ([] :: (lineSplit cs).1, (lineSplit cs).2)
      else
        match lineSplit cs with
        | ([], rest) => ([], c :: rest)
        | (l :: ls, rest) => ((c :: l) :: ls, rest) := rfl

/-- Incremental line splitting composes: splitting `a ++ b` splits `a`,
then the remainder of `a` prepended to `b`. -/
theorem lineSplit_append (a b : List Char) :
    lineSplit (a ++ b) =
      ((lineSplit a).1 ++ (lineSplit ((lineSplit a).2 ++ b)).1,
        (lineSplit ((lineSplit a).2 ++ b)).2) := by
  induction a with
  | nil => simp [lineSplit_nil]
  | cons c cs ih =>
    rcases hs : lineSplit cs with ⟨ls, r⟩
    rw [hs] at ih
    rcases hf : lineSplit (r ++ b) with ⟨fls, fr⟩
    rw [hf] at ih
    by_cases hc : c = '\n'
    · subst hc
      have h2 : lineSplit ('\n' :: cs) = ([] :: ls, r) := by
        rw [lineSplit_cons, if_pos rfl, hs]
      have h1 : lineSplit (('\n' :: cs) ++ b) = ([] :: (ls ++ fls), fr) := by
        rw [List.cons_append, lineSplit_cons, if_pos rfl, ih]
      rw [h1, h2]
      simp [hf]
    · cases ls with
      | nil =>
        dsimp only at ih
        have h2 : lineSplit (c :: cs) = ([], c :: r) := by
          rw [lineSplit_cons, if_neg hc, hs]
        have h1 : lineSplit ((c :: cs) ++ b) =
            (match (fls, fr) with
             | ([], rest) => ([], c :: rest)
             | (l :: ls', rest) => ((c :: l) :: ls', rest)) := by
          rw [List.cons_append, lineSplit_cons, if_neg hc, ih]
          simp
        have h3 : lineSplit ((c :: r) ++ b) =
            (match (fls, fr) with
             | ([], rest) => ([], c :: rest)
             | (l :: ls', rest) => ((c :: l) :: ls', rest)) := by
          rw [List.cons_append, lineSplit_cons, if_neg hc, hf]
        rw [h1, h2]
        dsimp only
        rw [h3]
        cases fls <;> simp
      | cons l ls' =>
        simp only [List.cons_append] at ih
        have h2 : lineSplit (c :: cs) = ((c :: l) :: ls', r) := by
          rw [lineSplit_cons, if_neg hc, hs]
        have h1 : lineSplit ((c :: cs) ++ b) = ((c :: l) :: (ls' ++ fls), fr) := by
          rw [List.cons_append, lineSplit_cons, if_neg hc, ih]
        rw [h1, h2]
        simp [hf]

/-- The trailing partial line never contains a newline. -/
theorem lineSplit_snd_no_nl (l : List Char) : '\n' ∉ (lineSplit l).2 := by
  induction l with
  | nil => simp [lineSplit_nil]
  | cons c cs ih =>
    rcases hs : lineSplit cs with ⟨ls, r⟩
    rw [hs] at ih
    rw [lineSplit_cons, hs]
    by_cases hc : c = '\n'
    · simpa [hc] using ih
    · cases ls with
      | nil =>
        rw [if_neg hc]
        intro hmem
        rcases List.mem_cons.mp hmem with h1 | h1
        · exact hc h1.symm
        · exact ih h1
      | cons l' ls' => simpa [hc] using ih

/-- A newline-free stream splits into no complete line. -/
theorem lineSplit_of_no_nl {l : List Char} (h : '\n' ∉ l) : lineSplit l = ([], l) := by
  induction l with
  | nil => rfl
  | cons c cs ih =>
    have hc : c ≠ '\n' := fun hcc => h (hcc ▸ List.mem_cons_self c cs)
    have hcs : '\n' ∉ cs := fun hm => h (List.mem_cons_of_mem c hm)
    rw [lineSplit_cons, if_neg hc, ih hcs]

/-- Conversely, a stream with no complete line is newline-free. -/
theorem no_nl_of_lineSplit_fst_nil {l : List Char} (h : (lineSplit l).1 = []) :
    '\n' ∉ l := by
  induction l with
  | nil => simp
  | cons c cs ih =>
    rcases hs : lineSplit cs with ⟨ls, r⟩
    rw [lineSplit_cons, hs] at h
    rw [hs] at ih
    by_cases hc : c = '\n'
    · rw [if_pos hc] at h
      simp at h
    · rw [if_neg hc] at h
      cases ls with
      | nil =>
        have hcs : '\n' ∉ cs := ih rfl
        intro hmem
        rcases List.mem_cons.mp hmem with h1 | h1
        · exact hc h1.symm
        · exact hcs h1
      | cons l' ls' => simp at h

/-! ## SSE refragmentation -/

theorem sseLineStep_out (parts outs : List (List Char)) (l : List Char) :
    sseLineStep (parts, outs) l =
      ((sseLineStep (parts, []) l).1, outs ++ (sseLineStep (parts, []) l).2) := by
  by_cases h : trimChars l = [] <;>
    by_cases h2 : charsStartWith (trimChars l) ("data:".data) <;>
      cases parts <;> simp [sseLineStep, h, h2]

theorem foldl_sseLineStep_out (ls : List (List Char)) (parts outs : List (List Char)) :
    ls.foldl sseLineStep (parts, outs) =
      ((ls.foldl sseLineStep (parts, [])).1,
        outs ++ (ls.foldl sseLineStep (parts, [])).2) := by
  induction ls generalizing parts outs with
  | nil => simp
  | cons l ls ih =>
    simp only [List.foldl_cons]
    rw [sseLineStep_out parts outs l]
    rcases hP : sseLineStep (parts, []) l with ⟨P, O⟩
    rw [ih P (outs ++ O), ih P O]
    simp

theorem feedChunk_buffer (st : SSEState) (c : List Char) :
    (feedChunk st c).1.buffer = (lineSplit (st.buffer ++ c)).2 := rfl

theorem feedChunk_buffer_no_nl (st : SSEState) (c : List Char) :
    '\n' ∉ (feedChunk st c).1.buffer := by
  rw [feedChunk_buffer]; exact lineSplit_snd_no_nl _

/-- Feeding `a ++ b` as one chunk is the same as feeding `a` then `b`. -/
theorem feedChunk_append (st : SSEState) (a b : List Char) :
    feedChunk st (a ++ b) =
      ((feedChunk (feedChunk st a).1 b).1,
        (feedChunk st a).2 ++ (feedChunk (feedChunk st a).1 b).2) := by
  unfold feedChunk
  have hs : st.buffer ++ (a ++ b) = (st.buffer ++ a) ++ b := by simp
  rw [hs, lineSplit_append (st.buffer ++ a) b]
  simp only [List.foldl_append]
  rw [foldl_sseLineStep_out _ _ ([] : List (List Char)),
    foldl_sseLineStep_out ((lineSplit ((lineSplit (st.buffer ++ a)).2 ++ b)).1)
      ((lineSplit (st.buffer ++ a)).1.foldl sseLineStep (st.parts, [])).1]

/-- Feeding a fragmented stream is the same as feeding its concatenation
as one chunk. -/
theorem feedChunks_eq_concat (cs : List String) (st : SSEState)
    (h : '\n' ∉ st.buffer) :
    feedChunks st cs = feedChunk st (concatChunks cs) := by
  induction cs generalizing st with
  | nil =>
    have hnil : concatChunks [] = [] := rfl
    rw [hnil]
    unfold feedChunks feedChunk
    rw [List.append_nil, lineSplit_of_no_nl h]
    simp
  | cons c cs ih =>
    have hstep : feedChunks st (c :: cs) =
        ((feedChunks (feedChunk st c.data).1 cs).1,
          (feedChunk st c.data).2 ++ (feedChunks (feedChunk st c.data).1 cs).2) := rfl
    have hconcat : concatChunks (c :: cs) = c.data ++ concatChunks cs := by
      simp [concatChunks]
    rw [hstep, ih _ (feedChunk_buffer_no_nl st c.data), hconcat,
      feedChunk_append st c.data (concatChunks cs)]

/-- C5 core: the payload sequence is invariant under refragmentation. -/
theorem sseParse_refragment (chunks : List String) :
    sseParse chunks = sseParse [String.join chunks] := by
  have hdata : ∀ (l : List String) (s : String),
      (l.foldl (fun r s' => r ++ s') s).data = s.data ++ (l.map String.data).flatten := by
    intro l
    induction l with
    | nil => intro s; simp
    | cons c cs ih =>
      intro s
      have happ : (s ++ c).data = s.data ++ c.data := by
        cases s; cases c; rfl
      simp only [List.foldl_cons, ih, happ, List.map_cons,
        List.flatten_cons, List.append_assoc]
  have hjoin : (String.join chunks).data = concatChunks chunks := by
    have := hdata chunks ""
    simpa [String.join, concatChunks] using this
  have honechunk : concatChunks [String.join chunks] = (String.join chunks).data := by
    simp [concatChunks]
  unfold sseParse
  rw [feedChunks_eq_concat chunks sseInit (by simp [sseInit]),
    feedChunks_eq_concat [String.join chunks] sseInit (by simp [sseInit]),
    honechunk, hjoin]

/-! ## String helper lemmas -/

theorem str_append_empty (s : String) : s ++ "" = s := by
  apply String.ext
  simp [String.data_append]

theorem str_append_assoc (a b c : String) : a ++ b ++ c = a ++ (b ++ c) := by
  apply String.ext
  simp [String.data_append]

theorem strConcat_nil : strConcat [] = "" := rfl

theorem strConcat_cons (a : String) (l : List String) :
    strConcat (a :: l) = a ++ strConcat l := by
  apply String.ext
  simp [strConcat, String.data_append]

/-! ## Client reconstructor: the per-model fold -/

theorem lookupModel_set_self (bm : List (String × StreamState)) (id : String)
    (v : StreamState) : lookupModel (setModel bm id v) id = some v := by
  induction bm with
  | nil => simp [setModel, lookupModel]
  | cons kv rest ih =>
    by_cases h : kv.1 == id
    · simp [setModel, lookupModel, h]
    · simp only [setModel, lookupModel, h, if_neg]
      simpa [h] using ih

theorem lookupModel_set_ne (bm : List (String × StreamState)) (id id' : String)
    (v : StreamState) (h : id ≠ id') :
    lookupModel (setModel bm id v) id' = lookupModel bm id' := by
  have hbe : (id == id') = false := beq_eq_false_iff_ne.mpr h
  induction bm with
  | nil => simp [setModel, lookupModel, hbe]
  | cons kv rest ih =>
    by_cases hk : kv.1 == id
    · have hk' : (kv.1 == id') = false := by
        have : kv.1 = id := beq_iff_eq.mp hk
        subst this
        exact hbe
      simp [setModel, lookupModel, hk, hk', hbe]
    · simp [setModel, lookupModel, hk, ih]

theorem contentOf_eq_getD (st : ClientState) (id : String) :
    contentOf st id = ((lookupModel st.byModel id).getD emptyStream).content := by
  cases h : lookupModel st.byModel id <;> simp [contentOf, h, emptyStream]

theorem contentOf_updModel (st : ClientState) (id id' : String)
    (f : StreamState → StreamState) :
    contentOf (updModel st id f) id' =
      if id = id' then (f ((lookupModel st.byModel id).getD emptyStream)).content
      else contentOf st id' := by
  by_cases h : id = id'
  · subst h
    rw [if_pos rfl, contentOf_eq_getD]
    unfold updModel
    rw [lookupModel_set_self]
    rfl
  · rw [if_neg h, contentOf_eq_getD, contentOf_eq_getD]
    unfold updModel
    rw [lookupModel_set_ne _ _ _ _ h]

theorem contentOf_apply_delta (st : ClientState) (i : String) (t : String) (id : String) :
    contentOf (applyClientEvent st (.delta i t)) id =
      if i = id then contentOf st id ++ t else contentOf st id := by
  show contentOf (updModel st i _) id = _
  rw [contentOf_updModel]
  by_cases h : i = id <;> simp [h, contentOf_eq_getD]

theorem contentOf_apply_nondelta (st : ClientState) (e : SEvent) (id : String)
    (h : deltaB e = false) :
    contentOf (applyClientEvent st e) id = contentOf st id := by
  cases e with
  | delta i t => simp [deltaB] at h
  | start ms tq => rfl
  | ping => rfl
  | endEvt n => simp [applyClientEvent, contentOf]
  | modelStart i =>
    show contentOf (updModel st i _) id = _
    rw [contentOf_updModel]
    by_cases hi : i = id <;> simp [hi, contentOf_eq_getD]
  | ttfb i ms =>
    show contentOf (updModel st i _) id = _
    rw [contentOf_updModel]
    by_cases hi : i = id <;> simp [hi, contentOf_eq_getD]
  | usage i a b c =>
    show contentOf (updModel st i _) id = _
    rw [contentOf_updModel]
    by_cases hi : i = id <;> simp [hi, contentOf_eq_getD]
  | modelDone i ms =>
    show contentOf (updModel st i _) id = _
    rw [contentOf_updModel]
    by_cases hi : i = id <;> simp [hi, contentOf_eq_getD]
  | errorEvt i msg ms =>
    show contentOf (updModel st i _) id = _
    rw [contentOf_updModel]
    by_cases hi : i = id <;> simp [hi, contentOf_eq_getD]

/-- Append-only: no event ever shortens a model's accumulated content. -/
theorem contentOf_apply_mono (st : ClientState) (e : SEvent) (id : String) :
    (contentOf st id).length ≤ (contentOf (applyClientEvent st e) id).length := by
  by_cases hd : deltaB e = true
  · cases e with
    | delta i t =>
      rw [contentOf_apply_delta]
      by_cases h : i = id
      · rw [if_pos h, String.length_append]
        exact Nat.le_add_right _ _
      · rw [if_neg h]
    | _ => simp [deltaB] at hd
  · rw [contentOf_apply_nondelta st e id (by simpa using hd)]

/-- Folding events appends exactly the concatenation of the model's
`delta` texts, in order. -/
theorem contentOf_foldl_events (evts : List SEvent) (st : ClientState) (id : String) :
    contentOf (evts.foldl applyClientEvent st) id =
      contentOf st id ++ strConcat (deltaTexts id evts) := by
  induction evts generalizing st with
  | nil => simp [deltaTexts, strConcat_nil, str_append_empty]
  | cons e evts ih =>
    rw [List.foldl_cons, ih]
    by_cases hd : deltaB e = true
    · cases e with
      | delta i t =>
        rw [contentOf_apply_delta]
        have hdt : deltaTexts id (SEvent.delta i t :: evts) =
            if i = id then t :: deltaTexts id evts else deltaTexts id evts := by
          simp only [deltaTexts, List.filterMap_cons]
          by_cases h : i = id <;> simp [h]
        rw [hdt]
        by_cases h : i = id
        · rw [if_pos h, if_pos h, strConcat_cons, str_append_assoc]
        · rw [if_neg h, if_neg h]
      | _ => simp [deltaB] at hd
    · rw [contentOf_apply_nondelta st e id (by simpa using hd)]
      have hskip : deltaTexts id (e :: evts) = deltaTexts id evts := by
        cases e <;> simp [deltaTexts, deltaB] at hd ⊢
      rw [hskip]

/-! ## Client reconstructor: refragmentation of the line stream -/

theorem runBufferAux_cons (p : String → Option SEvent) (st : ClientState)
    (l : List Char) (ls : List (List Char)) (r : List Char) :
    runBufferAux p st (l :: ls) r =
      if trimChars l = [] then runBufferAux p st ls r
      else
        match p (String.mk (trimChars l)) with
        | some (.endEvt n) => (applyClientEvent st (.endEvt n), rejoinLines ls r)
        | some e => runBufferAux p (applyClientEvent st e) ls r
        | none => runBufferAux p st ls r := rfl

theorem stepLine_skip_empty (p : String → Option SEvent) (st : ClientState)
    (l : List Char) (ht : trimChars l = []) : stepLine p st l = st := by
  unfold stepLine
  rw [if_pos ht]

theorem stepLine_skip_malformed (p : String → Option SEvent) (st : ClientState)
    (l : List Char) (ht : ¬trimChars l = [])
    (hp : p (String.mk (trimChars l)) = none) : stepLine p st l = st := by
  unfold stepLine
  rw [if_neg ht, hp]

theorem stepLine_decode (p : String → Option SEvent) (st : ClientState)
    (l : List Char) (e : SEvent) (ht : ¬trimChars l = [])
    (hp : p (String.mk (trimChars l)) = some e) :
    stepLine p st l = applyClientEvent st e := by
  unfold stepLine
  rw [if_neg ht, hp]

theorem endLineB_true_iff (p : String → Option SEvent) (l : List Char) :
    endLineB p l = true ↔
      (¬trimChars l = [] ∧ ∃ n, p (String.mk (trimChars l)) = some (.endEvt n)) := by
  unfold endLineB
  by_cases ht : trimChars l = []
  · simp [ht]
  · rcases hp : p (String.mk (trimChars l)) with _ | e
    · simp [ht, hp]
    · cases e <;> simp [ht, hp]

theorem runBufferAux_skip_empty (p : String → Option SEvent) (st : ClientState)
    (l : List Char) (ls : List (List Char)) (r : List Char)
    (ht : trimChars l = []) :
    runBufferAux p st (l :: ls) r = runBufferAux p st ls r := by
  rw [runBufferAux_cons, if_pos ht]

theorem runBufferAux_skip_malformed (p : String → Option SEvent) (st : ClientState)
    (l : List Char) (ls : List (List Char)) (r : List Char)
    (ht : ¬trimChars l = []) (hp : p (String.mk (trimChars l)) = none) :
    runBufferAux p st (l :: ls) r = runBufferAux p st ls r := by
  rw [runBufferAux_cons, if_neg ht, hp]

theorem runBufferAux_cons_end (p : String → Option SEvent) (st : ClientState)
    (l : List Char) (ls : List (List Char)) (r : List Char) (n : Nat)
    (ht : ¬trimChars l = []) (hp : p (String.mk (trimChars l)) = some (.endEvt n)) :
    runBufferAux p st (l :: ls) r =
      (applyClientEvent st (.endEvt n), rejoinLines ls r) := by
  rw [runBufferAux_cons, if_neg ht, hp]

theorem runBufferAux_cons_event (p : String → Option SEvent) (st : ClientState)
    (l : List Char) (ls : List (List Char)) (r : List Char) (e : SEvent)
    (ht : ¬trimChars l = []) (hp : p (String.mk (trimChars l)) = some e)
    (hne : isEndB e = false) :
    runBufferAux p st (l :: ls) r = runBufferAux p (applyClientEvent st e) ls r := by
  rw [runBufferAux_cons, if_neg ht, hp]
  cases e <;> first | rfl | simp [isEndB] at hne

/-- Without an `end` line, the inner loop is a plain fold over the
complete lines, with the partial line untouched. -/
theorem runBufferAux_no_end (p : String → Option SEvent) (ls : List (List Char)) :
    ∀ (st : ClientState) (r : List Char), (∀ l ∈ ls, endLineB p l = false) →
      runBufferAux p st ls r = (ls.foldl (stepLine p) st, r) := by
  induction ls with
  | nil => intro st r _; rfl
  | cons l ls ih =>
    intro st r h
    have hl := h l (List.mem_cons_self _ _)
    have hrest : ∀ x ∈ ls, endLineB p x = false :=
      fun x hx => h x (List.mem_cons_of_mem _ hx)
    rw [List.foldl_cons]
    by_cases ht : trimChars l = []
    · rw [runBufferAux_skip_empty p st l ls r ht, ih st r hrest,
        stepLine_skip_empty p st l ht]
    · rcases hp : p (String.mk (trimChars l)) with _ | e
      · rw [runBufferAux_skip_malformed p st l ls r ht hp, ih st r hrest,
          stepLine_skip_malformed p st l ht hp]
      · have hne : isEndB e = false := by
          cases e <;>
            first
            | exact absurd ((endLineB_true_iff p l).mpr ⟨ht, _, hp⟩) (by simp [hl])
            | rfl
        rw [runBufferAux_cons_event p st l ls r e ht hp hne, ih _ r hrest,
          stepLine_decode p st l _ ht hp]

/-- The inner loop over a concatenation whose first part is `end`-free. -/
theorem runBufferAux_append_no_end (p : String → Option SEvent) (ls1 : List (List Char)) :
    ∀ (st : ClientState) (ls2 : List (List Char)) (r : List Char),
      (∀ l ∈ ls1, endLineB p l = false) →
      runBufferAux p st (ls1 ++ ls2) r =
        runBufferAux p (ls1.foldl (stepLine p) st) ls2 r := by
  induction ls1 with
  | nil => intro st ls2 r _; rfl
  | cons l ls ih =>
    intro st ls2 r h
    have hl := h l (List.mem_cons_self _ _)
    have hrest : ∀ x ∈ ls, endLineB p x = false :=
      fun x hx => h x (List.mem_cons_of_mem _ hx)
    rw [List.cons_append, List.foldl_cons]
    by_cases ht : trimChars l = []
    · rw [runBufferAux_skip_empty p st l _ r ht, ih st ls2 r hrest,
        stepLine_skip_empty p st l ht]
    · rcases hp : p (String.mk (trimChars l)) with _ | e
      · rw [runBufferAux_skip_malformed p st l _ r ht hp, ih st ls2 r hrest,
          stepLine_skip_malformed p st l ht hp]
      · have hne : isEndB e = false := by
          cases e <;>
            first
            | exact absurd ((endLineB_true_iff p l).mpr ⟨ht, _, hp⟩) (by simp [hl])
            | rfl
        rw [runBufferAux_cons_event p st l _ r e ht hp hne, ih _ ls2 r hrest,
          stepLine_decode p st l _ ht hp]

theorem clientStepChunk_eq (p : String → Option SEvent) (s : ClientState × List Char)
    (c : String) :
    clientStepChunk p s c =
      runBufferAux p s.1 (lineSplit (s.2 ++ c.data)).1 (lineSplit (s.2 ++ c.data)).2 := rfl

/-- When the whole remaining input holds no newline, the read loop only
accumulates buffer. -/
theorem clientFold_no_lines (p : String → Option SEvent) (cs : List String) :
    ∀ (st : ClientState) (buf : List Char), '\n' ∉ buf ++ concatChunks cs →
      cs.foldl (clientStepChunk p) (st, buf) = (st, buf ++ concatChunks cs) := by
  induction cs with
  | nil =>
    intro st buf _
    simp [concatChunks]
  | cons c cs ih =>
    intro st buf h
    have hcc : concatChunks (c :: cs) = c.data ++ concatChunks cs := by
      simp [concatChunks]
    rw [hcc] at h
    have h1 : '\n' ∉ buf ++ c.data := by
      intro hm
      rcases List.mem_append.mp hm with hm | hm
      · exact h (List.mem_append.mpr (Or.inl hm))
      · exact h (List.mem_append.mpr (Or.inr (List.mem_append.mpr (Or.inl hm))))
    have hstep : clientStepChunk p (st, buf) c = (st, buf ++ c.data) := by
      rw [clientStepChunk_eq]
      dsimp only
      rw [lineSplit_of_no_nl h1]
      rfl
    have h2 : '\n' ∉ (buf ++ c.data) ++ concatChunks cs := by
      simpa [List.append_assoc] using h
    rw [List.foldl_cons, hstep, ih st (buf ++ c.data) h2, hcc, List.append_assoc]

/-- Refragmentation (no `end` line anywhere): the read loop is the fold
of the complete lines of the concatenated input. -/
theorem clientFold_no_end (p : String → Option SEvent) (cs : List String) :
    ∀ (st : ClientState) (buf : List Char), '\n' ∉ buf →
      (∀ l ∈ (lineSplit (buf ++ concatChunks cs)).1, endLineB p l = false) →
      cs.foldl (clientStepChunk p) (st, buf) =
        ((lineSplit (buf ++ concatChunks cs)).1.foldl (stepLine p) st,
          (lineSplit (buf ++ concatChunks cs)).2) := by
  induction cs with
  | nil =>
    intro st buf hbuf _
    rw [show concatChunks [] = [] from rfl, List.append_nil, lineSplit_of_no_nl hbuf]
    rfl
  | cons c cs ih =>
    intro st buf hbuf h
    have hcc : concatChunks (c :: cs) = c.data ++ concatChunks cs := by
      simp [concatChunks]
    have hglob : lineSplit (buf ++ concatChunks (c :: cs)) =
        ((lineSplit (buf ++ c.data)).1 ++
            (lineSplit ((lineSplit (buf ++ c.data)).2 ++ concatChunks cs)).1,
          (lineSplit ((lineSplit (buf ++ c.data)).2 ++ concatChunks cs)).2) := by
      rw [hcc, ← List.append_assoc]
      exact lineSplit_append _ _
    have hno1 : ∀ l ∈ (lineSplit (buf ++ c.data)).1, endLineB p l = false := by
      intro l hl
      apply h
      rw [hglob]
      exact List.mem_append.mpr (Or.inl hl)
    have hstep : clientStepChunk p (st, buf) c =
        ((lineSplit (buf ++ c.data)).1.foldl (stepLine p) st,
          (lineSplit (buf ++ c.data)).2) := by
      rw [clientStepChunk_eq]
      exact runBufferAux_no_end p _ st _ hno1
    have hbuf1 : '\n' ∉ (lineSplit (buf ++ c.data)).2 := lineSplit_snd_no_nl _
    have hno2 : ∀ l ∈ (lineSplit ((lineSplit (buf ++ c.data)).2 ++ concatChunks cs)).1,
        endLineB p l = false := by
      intro l hl
      apply h
      rw [hglob]
      exact List.mem_append.mpr (Or.inr hl)
    rw [List.foldl_cons, hstep, ih _ _ hbuf1 hno2, hglob, List.foldl_append]

/-- Refragmentation with the `end` line as the last complete line of the
whole input: the fold stops exactly there, regardless of chunking. -/
theorem clientFold_end_last (p : String → Option SEvent) (cs : List String) :
    ∀ (st : ClientState) (buf : List Char) (ls0 : List (List Char))
      (lend : List Char) (n : Nat), '\n' ∉ buf →
      (lineSplit (buf ++ concatChunks cs)).1 = ls0 ++ [lend] →
      (∀ l ∈ ls0, endLineB p l = false) →
      ¬trimChars lend = [] →
      p (String.mk (trimChars lend)) = some (.endEvt n) →
      (cs.foldl (clientStepChunk p) (st, buf)).1 =
        applyClientEvent (ls0.foldl (stepLine p) st) (.endEvt n) := by
  induction cs with
  | nil =>
    intro st buf ls0 lend n hbuf hsplit _ _ _
    rw [show concatChunks [] = [] from rfl, List.append_nil,
      lineSplit_of_no_nl hbuf] at hsplit
    simp at hsplit
  | cons c cs ih =>
    intro st buf ls0 lend n hbuf hsplit h0 hT hp
    have hcc : concatChunks (c :: cs) = c.data ++ concatChunks cs := by
      simp [concatChunks]
    have hglob : lineSplit (buf ++ concatChunks (c :: cs)) =
        ((lineSplit (buf ++ c.data)).1 ++
            (lineSplit ((lineSplit (buf ++ c.data)).2 ++ concatChunks cs)).1,
          (lineSplit ((lineSplit (buf ++ c.data)).2 ++ concatChunks cs)).2) := by
      rw [hcc, ← List.append_assoc]
      exact lineSplit_append _ _
    rw [hglob] at hsplit
    dsimp only at hsplit
    have hbuf1 : '\n' ∉ (lineSplit (buf ++ c.data)).2 := lineSplit_snd_no_nl _
    rcases List.append_eq_append_iff.mp hsplit with ⟨a', hc1, hc2⟩ | ⟨c', hc1, hc2⟩
    · -- the current chunk's lines are a prefix of ls0
      have hnoL1 : ∀ l ∈ (lineSplit (buf ++ c.data)).1, endLineB p l = false := by
        intro l hl
        exact h0 l (hc1 ▸ List.mem_append.mpr (Or.inl hl))
      have h0' : ∀ l ∈ a', endLineB p l = false := by
        intro l hl
        exact h0 l (hc1 ▸ List.mem_append.mpr (Or.inr hl))
      have hstep : clientStepChunk p (st, buf) c =
          ((lineSplit (buf ++ c.data)).1.foldl (stepLine p) st,
            (lineSplit (buf ++ c.data)).2) := by
        rw [clientStepChunk_eq]
        exact runBufferAux_no_end p _ st _ hnoL1
      rw [List.foldl_cons, hstep,
        ih _ _ a' lend n hbuf1 hc2 h0' hT hp, hc1, List.foldl_append]
    · -- the end line is completed by the current chunk
      cases c' with
      | nil =>
        simp only [List.append_nil] at hc1
        simp only [List.nil_append] at hc2
        have hnoL1 : ∀ l ∈ (lineSplit (buf ++ c.data)).1, endLineB p l = false := by
          intro l hl
          exact h0 l (hc1 ▸ hl)
        have hstep : clientStepChunk p (st, buf) c =
            ((lineSplit (buf ++ c.data)).1.foldl (stepLine p) st,
              (lineSplit (buf ++ c.data)).2) := by
          rw [clientStepChunk_eq]
          exact runBufferAux_no_end p _ st _ hnoL1
        rw [List.foldl_cons, hstep,
          ih _ _ [] lend n hbuf1 (by simpa using hc2.symm) (by simp) hT hp, hc1]
        rfl
      | cons x c'' =>
        rw [List.cons_append] at hc2
        injection hc2 with h1 h2
        rcases List.append_eq_nil.mp h2.symm with ⟨rfl, hL2nil⟩
        subst h1
        -- this chunk completes the end line: the loop breaks there
        have hstep : clientStepChunk p (st, buf) c =
            (applyClientEvent (ls0.foldl (stepLine p) st) (.endEvt n),
              rejoinLines [] (lineSplit (buf ++ c.data)).2) := by
          rw [clientStepChunk_eq]
          dsimp only
          rw [hc1, runBufferAux_append_no_end p ls0 st [lend] _ h0,
            runBufferAux_cons_end p _ lend [] _ n hT hp]
        have hnol : '\n' ∉
            rejoinLines [] (lineSplit (buf ++ c.data)).2 ++ concatChunks cs := by
          show '\n' ∉ (lineSplit (buf ++ c.data)).2 ++ concatChunks cs
          exact no_nl_of_lineSplit_fst_nil hL2nil
        rw [List.foldl_cons, hstep, clientFold_no_lines p cs _ _ hnol]

theorem str_empty_append (s : String) : "" ++ s = s := by
  apply String.ext
  simp [String.data_append]

theorem lineDeltas_skip (p : String → Option SEvent) (id : String) (l : List Char)
    (ls : List (List Char))
    (h : trimChars l = [] ∨ p (String.mk (trimChars l)) = none ∨
      ∃ e, p (String.mk (trimChars l)) = some e ∧ deltaB e = false) :
    lineDeltas p id (l :: ls) = lineDeltas p id ls := by
  rcases h with ht | hp | ⟨e, hp, hd⟩
  · simp [lineDeltas, ht]
  · by_cases ht : trimChars l = []
    · simp [lineDeltas, ht]
    · simp [lineDeltas, ht, hp]
  · by_cases ht : trimChars l = []
    · simp [lineDeltas, ht]
    · cases e <;> simp [lineDeltas, ht, hp, deltaB] at hd ⊢

theorem lineDeltas_delta (p : String → Option SEvent) (id : String) (l : List Char)
    (ls : List (List Char)) (i t : String) (ht : ¬trimChars l = [])
    (hp : p (String.mk (trimChars l)) = some (.delta i t)) :
    lineDeltas p id (l :: ls) =
      if i = id then t :: lineDeltas p id ls else lineDeltas p id ls := by
  by_cases h : i = id <;> simp [lineDeltas, ht, hp, h]

/-- Folding complete lines appends exactly the concatenation of this
model's decoded `delta` texts. -/
theorem contentOf_foldl_lines (p : String → Option SEvent) (ls : List (List Char)) :
    ∀ (st : ClientState) (id : String),
      contentOf (ls.foldl (stepLine p) st) id =
        contentOf st id ++ strConcat (lineDeltas p id ls) := by
  induction ls with
  | nil => intro st id; simp [lineDeltas, strConcat_nil, str_append_empty]
  | cons l ls ih =>
    intro st id
    rw [List.foldl_cons, ih]
    by_cases ht : trimChars l = []
    · rw [stepLine_skip_empty p st l ht, lineDeltas_skip p id l ls (Or.inl ht)]
    · rcases hp : p (String.mk (trimChars l)) with _ | e
      · rw [stepLine_skip_malformed p st l ht hp,
          lineDeltas_skip p id l ls (Or.inr (Or.inl hp))]
      · rw [stepLine_decode p st l e ht hp]
        by_cases hd : deltaB e = true
        · cases e with
          | delta i t =>
            rw [contentOf_apply_delta, lineDeltas_delta p id l ls i t ht hp]
            by_cases h : i = id
            · rw [if_pos h, if_pos h, strConcat_cons, str_append_assoc]
            · rw [if_neg h, if_neg h]
          | _ => simp [deltaB] at hd
        · have hd' : deltaB e = false := by simpa using hd
          rw [contentOf_apply_nondelta _ _ _ hd',
            lineDeltas_skip p id l ls (Or.inr (Or.inr ⟨e, hp, hd'⟩))]

/-- C6 core: for any fragmentation of a line stream in which a decoded
`end` line can only be the final complete line, the reconstructed content
of every model identifier is the concatenation of its `delta` texts, a
function of the concatenated stream only. -/
theorem clientRun_content (p : String → Option SEvent) (chunks : List String)
    (id : String)
    (h : ∀ l ∈ (lineSplit (concatChunks chunks)).1.dropLast, endLineB p l = false) :
    contentOf (clientRun p chunks) id =
      strConcat (lineDeltas p id (lineSplit (concatChunks chunks)).1) := by
  unfold clientRun
  have hnil : ([] : List Char) ++ concatChunks chunks = concatChunks chunks :=
    List.nil_append _
  by_cases hall : ∀ l ∈ (lineSplit (concatChunks chunks)).1, endLineB p l = false
  · rw [clientFold_no_end p chunks clientInit [] (by simp) (by rw [hnil]; exact hall)]
    rw [hnil]
    dsimp only
    rw [contentOf_foldl_lines]
    rw [show contentOf clientInit id = "" from rfl, str_empty_append]
  · push_neg at hall
    obtain ⟨lend, hmem, hlend⟩ := hall
    have hlendT : endLineB p lend = true := by
      cases hb : endLineB p lend
      · exact absurd hb hlend
      · rfl
    have hne : (lineSplit (concatChunks chunks)).1 ≠ [] := List.ne_nil_of_mem hmem
    have hdecomp : (lineSplit (concatChunks chunks)).1.dropLast ++
        [(lineSplit (concatChunks chunks)).1.getLast hne] =
        (lineSplit (concatChunks chunks)).1 := List.dropLast_append_getLast hne
    have hlast : lend = (lineSplit (concatChunks chunks)).1.getLast hne := by
      rcases List.mem_append.mp (hdecomp ▸ hmem) with hm | hm
      · exact absurd hlendT (by simp [h lend hm])
      · simpa using hm
    subst hlast
    obtain ⟨hT, n, hp⟩ := (endLineB_true_iff p _).mp hlendT
    rw [clientFold_end_last p chunks clientInit []
      (lineSplit (concatChunks chunks)).1.dropLast _ n (by simp)
      (by rw [hnil]; exact hdecomp.symm) h hT hp]
    rw [contentOf_apply_nondelta _ _ _ (by rfl), contentOf_foldl_lines,
      show contentOf clientInit id = "" from rfl, str_empty_append]
    rw [← hdecomp]
    have hsplitD : lineDeltas p id ((lineSplit (concatChunks chunks)).1.dropLast ++
        [(lineSplit (concatChunks chunks)).1.getLast hne]) =
        lineDeltas p id (lineSplit (concatChunks chunks)).1.dropLast ++
          lineDeltas p id [(lineSplit (concatChunks chunks)).1.getLast hne] := by
      simp [lineDeltas]
    rw [hsplitD]
    have hlastD : lineDeltas p id [(lineSplit (concatChunks chunks)).1.getLast hne] = [] := by
      simp [lineDeltas, hT, hp]
    rw [hlastD, List.append_nil, List.dropLast_concat]

/-! ## Worker invariants -/

theorem countP_concat_event (p : SEvent → Bool) (l : List SEvent) (e : SEvent) :
    (l ++ [e]).countP p = l.countP p + (if p e then 1 else 0) := by
  simp [List.countP_append, List.countP_cons]

theorem wWrite_events (s : WState) (e : SEvent) :
    (wWrite s e).events = s.events ++ [e] := rfl

theorem wInv_wInit (m : String) : WInv m (wInit m) := by
  refine ⟨⟨[], rfl⟩, ?_, ?_, ?_, ?_, ?_, ?_, ?_⟩ <;>
    simp [wInit, wWrite, msB, errB, mdB, ttfbB, deltaB, evId,
      List.countP_cons, List.countP_nil]

theorem wInv_markModelDone_none (m : String) (s : WState) (hs : WInv m s) :
    WInv m (markModelDone m none s) := by
  obtain ⟨⟨tl, htl⟩, h2, h3, h4, h5, h6, h7, h8⟩ := hs
  by_cases hc : s.modelCompleted
  · unfold markModelDone
    rw [if_pos hc]
    exact ⟨⟨tl, htl⟩, h2, h3, h4, h5, h6, h7, h8⟩
  · unfold markModelDone
    rw [if_neg hc]
    rw [if_neg hc] at h4
    refine ⟨⟨tl ++ [SEvent.modelDone m s.now], ?_⟩, ?_, ?_, ?_, ?_, ?_, ?_, ?_⟩
    · show s.events ++ [SEvent.modelDone m s.now] = _
      rw [htl]
      rfl
    · show (s.events ++ [SEvent.modelDone m s.now]).countP msB = 1
      rw [countP_concat_event, h2]
      rfl
    · show (s.events ++ [SEvent.modelDone m s.now]).countP errB = 0
      rw [countP_concat_event, h3]
      rfl
    · show (s.events ++ [SEvent.modelDone m s.now]).countP mdB = if true = true then 1 else 0
      rw [countP_concat_event, h4]
      simp [mdB]
    · show (s.events ++ [SEvent.modelDone m s.now]).countP ttfbB =
        if s.sawFirstToken = true then 1 else 0
      rw [countP_concat_event, h5]
      simp [ttfbB]
    · intro hg
      show (s.events ++ [SEvent.modelDone m s.now]).countP deltaB = 0
      rw [countP_concat_event, h6 hg]
      rfl
    · exact h7
    · intro e he
      have he' : e ∈ s.events ∨ e = SEvent.modelDone m s.now := by
        simpa [wWrite] using he
      rcases he' with hm | hm
      · exact h8 e hm
      · rw [hm]
        rfl

theorem wInv_wWrite_usage (m : String) (u : UsageJson) (s : WState) (hs : WInv m s) :
    WInv m (wWrite s (usageEvent m u)) := by
  obtain ⟨⟨tl, htl⟩, h2, h3, h4, h5, h6, h7, h8⟩ := hs
  refine ⟨⟨tl ++ [usageEvent m u], ?_⟩, ?_, ?_, ?_, ?_, ?_, ?_, ?_⟩
  · show s.events ++ [usageEvent m u] = _
    rw [htl]
    rfl
  · show (s.events ++ [usageEvent m u]).countP msB = 1
    rw [countP_concat_event, h2]
    rfl
  · show (s.events ++ [usageEvent m u]).countP errB = 0
    rw [countP_concat_event, h3]
    rfl
  · show (s.events ++ [usageEvent m u]).countP mdB = if s.modelCompleted = true then 1 else 0
    rw [countP_concat_event, h4]
    simp [mdB, usageEvent]
  · show (s.events ++ [usageEvent m u]).countP ttfbB = if s.sawFirstToken = true then 1 else 0
    rw [countP_concat_event, h5]
    simp [ttfbB, usageEvent]
  · intro hg
    show (s.events ++ [usageEvent m u]).countP deltaB = 0
    rw [countP_concat_event, h6 hg]
    simp [deltaB, usageEvent]
  · exact h7
  · intro e he
    have he' : e ∈ s.events ∨ e = usageEvent m u := by
      simpa [wWrite] using he
    rcases he' with hm | hm
    · exact h8 e hm
    · rw [hm]
      rfl

/-- The `ttfb`/`delta` emission block shared by the streaming loop and
the fallback path. -/
theorem wInv_delta_block (m txt : String) (s : WState) (hs : WInv m s) :
    WInv m (let sa := if s.sawFirstToken then s
              else { wWrite s (.ttfb m s.now) with sawFirstToken := true }
            { wWrite sa (.delta m txt) with gotAnyToken := true }) := by
  obtain ⟨⟨tl, htl⟩, h2, h3, h4, h5, h6, h7, h8⟩ := hs
  by_cases hf : s.sawFirstToken
  · show WInv m { wWrite (if s.sawFirstToken = true then s
      else { wWrite s (.ttfb m s.now) with sawFirstToken := true }) (.delta m txt) with
        gotAnyToken := true }
    rw [if_pos hf]
    refine ⟨⟨tl ++ [SEvent.delta m txt], ?_⟩, ?_, ?_, ?_, ?_, ?_, ?_, ?_⟩
    · show s.events ++ [SEvent.delta m txt] = _
      rw [htl]
      rfl
    · show (s.events ++ [SEvent.delta m txt]).countP msB = 1
      rw [countP_concat_event, h2]
      rfl
    · show (s.events ++ [SEvent.delta m txt]).countP errB = 0
      rw [countP_concat_event, h3]
      rfl
    · show (s.events ++ [SEvent.delta m txt]).countP mdB = if s.modelCompleted = true then 1 else 0
      rw [countP_concat_event, h4]
      simp [mdB]
    · show (s.events ++ [SEvent.delta m txt]).countP ttfbB = if s.sawFirstToken = true then 1 else 0
      rw [countP_concat_event, h5]
      simp [ttfbB]
    · intro hg
      exact absurd hg (by simp)
    · show s.sawFirstToken = true
      exact hf
    · intro e he
      have he' : e ∈ s.events ∨ e = SEvent.delta m txt := by
        simpa [wWrite] using he
      rcases he' with hm | hm
      · exact h8 e hm
      · rw [hm]
        rfl
  · show WInv m { wWrite (if s.sawFirstToken = true then s
      else { wWrite s (.ttfb m s.now) with sawFirstToken := true }) (.delta m txt) with
        gotAnyToken := true }
    rw [if_neg hf]
    have hf' : s.sawFirstToken = false := by simpa using hf
    rw [hf'] at h5
    refine ⟨⟨tl ++ [SEvent.ttfb m s.now, SEvent.delta m txt], ?_⟩, ?_, ?_, ?_, ?_, ?_, ?_, ?_⟩
    · show s.events ++ [SEvent.ttfb m s.now] ++ [SEvent.delta m txt] = _
      rw [htl]
      simp
    · show (s.events ++ [SEvent.ttfb m s.now] ++ [SEvent.delta m txt]).countP msB = 1
      rw [countP_concat_event, countP_concat_event, h2]
      rfl
    · show (s.events ++ [SEvent.ttfb m s.now] ++ [SEvent.delta m txt]).countP errB = 0
      rw [countP_concat_event, countP_concat_event, h3]
      rfl
    · show (s.events ++ [SEvent.ttfb m s.now] ++ [SEvent.delta m txt]).countP mdB =
        if s.modelCompleted = true then 1 else 0
      rw [countP_concat_event, countP_concat_event, h4]
      simp [mdB]
    · show (s.events ++ [SEvent.ttfb m s.now] ++ [SEvent.delta m txt]).countP ttfbB =
        if true = true then 1 else 0
      rw [countP_concat_event, countP_concat_event, h5]
      simp [ttfbB]
    · intro hg
      exact absurd hg (by simp)
    · rfl
    · intro e he
      have he' : e ∈ s.events ∨ e = SEvent.ttfb m s.now ∨ e = SEvent.delta m txt := by
        simpa [wWrite] using he
      rcases he' with hm | hm | hm
      · exact h8 e hm
      · rw [hm]
        rfl
      · rw [hm]
        rfl

/-- The decoded-payload branch of `flushEventData`, with the scrutinees
resolved. -/
theorem flushEventData_decoded (d : String → Option ChunkJson) (m str : String)
    (s : WState) (ch : ChunkJson) (he : ¬str = "") (hdone : ¬str = "[DONE]")
    (hch : d str = some ch) :
    flushEventData d m s str =
      (let s1 := if extractDelta ch = "" then s
          else
            let sa := if s.sawFirstToken then s
              else { wWrite s (.ttfb m s.now) with sawFirstToken := true }
            { wWrite sa (.delta m (extractDelta ch)) with gotAnyToken := true }
       match ch.usage with
       | some u => wWrite s1 (usageEvent m u)
       | none => s1) := by
  unfold flushEventData
  rw [if_neg he, if_neg hdone, hch]

theorem wInv_flush (d : String → Option ChunkJson) (m : String) (str : String)
    (s : WState) (hs : WInv m s) : WInv m (flushEventData d m s str) := by
  by_cases he : str = ""
  · unfold flushEventData
    rw [if_pos he]
    exact hs
  by_cases hdone : str = "[DONE]"
  · unfold flushEventData
    rw [if_neg he, if_pos hdone]
    exact wInv_markModelDone_none m s hs
  rcases hch : d str with _ | ch
  · unfold flushEventData
    rw [if_neg he, if_neg hdone, hch]
    exact hs
  · have hS1 : WInv m (if extractDelta ch = "" then s
        else
          let sa := if s.sawFirstToken then s
            else { wWrite s (.ttfb m s.now) with sawFirstToken := true }
          { wWrite sa (.delta m (extractDelta ch)) with gotAnyToken := true }) := by
      by_cases hδ : extractDelta ch = ""
      · rw [if_pos hδ]
        exact hs
      · rw [if_neg hδ]
        exact wInv_delta_block m (extractDelta ch) s hs
    rw [flushEventData_decoded d m str s ch he hdone hch]
    rcases hu : ch.usage with _ | u
    · exact hS1
    · exact wInv_wWrite_usage m u _ hS1

theorem wInv_streamPhase (d : String → Option ChunkJson) (m : String)
    (payloads : List String) : WInv m (streamPhase d m payloads) := by
  unfold streamPhase
  have h : ∀ (s : WState), WInv m s → WInv m (payloads.foldl (flushEventData d m) s) := by
    induction payloads with
    | nil => intro s hs; exact hs
    | cons x xs ih =>
      intro s hs
      exact ih _ (wInv_flush d m x s hs)
  exact h _ (wInv_wInit m)


theorem countP_term_split (l : List SEvent) :
    l.countP terminalB = l.countP mdB + l.countP errB := by
  induction l with
  | nil => rfl
  | cons e t ih =>
    cases e <;> simp [List.countP_cons, terminalB, mdB, errB, ih] <;> omega

theorem wOk_markModelDone (m : String) (err : Option String) (s : WState)
    (hs : WInv m s) : WOk m (markModelDone m err s).events := by
  obtain ⟨⟨tl, htl⟩, h2, h3, h4, h5, h6, h7, h8⟩ := hs
  by_cases hc : s.modelCompleted
  · unfold markModelDone
    rw [if_pos hc]
    rw [if_pos hc] at h4
    refine ⟨⟨tl, htl⟩, h2, ?_, h8⟩
    rw [countP_term_split, h3, h4]
  · unfold markModelDone
    rw [if_neg hc]
    rw [if_neg hc] at h4
    cases err with
    | none =>
      refine ⟨⟨tl ++ [SEvent.modelDone m s.now], ?_⟩, ?_, ?_, ?_⟩
      · show s.events ++ [SEvent.modelDone m s.now] = _
        rw [htl]
        rfl
      · show (s.events ++ [SEvent.modelDone m s.now]).countP msB = 1
        rw [countP_concat_event, h2]
        rfl
      · show (s.events ++ [SEvent.modelDone m s.now]).countP terminalB = 1
        rw [countP_concat_event, countP_term_split, h3, h4]
        rfl
      · intro e he
        have he' : e ∈ s.events ∨ e = SEvent.modelDone m s.now := by
          simpa [wWrite] using he
        rcases he' with hm | hm
        · exact h8 e hm
        · rw [hm]
          rfl
    | some msg =>
      refine ⟨⟨tl ++ [SEvent.errorEvt m msg s.now], ?_⟩, ?_, ?_, ?_⟩
      · show s.events ++ [SEvent.errorEvt m msg s.now] = _
        rw [htl]
        rfl
      · show (s.events ++ [SEvent.errorEvt m msg s.now]).countP msB = 1
        rw [countP_concat_event, h2]
        rfl
      · show (s.events ++ [SEvent.errorEvt m msg s.now]).countP terminalB = 1
        rw [countP_concat_event, countP_term_split, h3, h4]
        rfl
      · intro e he
        have he' : e ∈ s.events ∨ e = SEvent.errorEvt m msg s.now := by
          simpa [wWrite] using he
        rcases he' with hm | hm
        · exact h8 e hm
        · rw [hm]
          rfl

theorem wInv_fallback_pre (m text : String) (u : Option UsageJson) (s : WState)
    (hs : WInv m s) :
    WInv m (let s1 :=
        if text = "" then s
        else
          let sa := if s.sawFirstToken then s
            else { wWrite s (.ttfb m s.now) with sawFirstToken := true }
          { wWrite sa (.delta m text) with gotAnyToken := true }
      match u with
      | some uj => wWrite s1 (usageEvent m uj)
      | none => s1) := by
  have hs1 : WInv m (if text = "" then s
      else
        let sa := if s.sawFirstToken then s
          else { wWrite s (.ttfb m s.now) with sawFirstToken := true }
        { wWrite sa (.delta m text) with gotAnyToken := true }) := by
    by_cases ht : text = ""
    · rw [if_pos ht]
      exact hs
    · rw [if_neg ht]
      exact wInv_delta_block m text s hs
  rcases u with _ | uj
  · exact hs1
  · exact wInv_wWrite_usage m uj _ hs1

theorem wOk_fallbackState (m : String) (s : WState) (fb : FallbackResult)
    (hs : WInv m s) : WOk m (fallbackState m s fb).events := by
  cases fb with
  | fail msg => exact wOk_markModelDone m (some msg) s hs
  | ok text u => exact wOk_markModelDone m none _ (wInv_fallback_pre m text u s hs)

/-- Every worker, whatever the upstream and fallback do, emits a
well-formed event sequence: `model-start` first, exactly one
`model-start`, exactly one terminal event, all tagged with its model. -/
theorem wOk_workerState (decode : String → Option ChunkJson) (m : String)
    (up : UpstreamResult) (fb : FallbackResult) :
    WOk m (workerState decode m up fb).events := by
  cases up with
  | fail msg => exact wOk_markModelDone m (some msg) _ (wInv_wInit m)
  | okPartial chunks msg =>
    exact wOk_markModelDone m (some msg) _ (wInv_streamPhase decode m _)
  | ok chunks =>
    show WOk m (if (streamPhase decode m (sseParse chunks)).gotAnyToken then
        markModelDone m none (streamPhase decode m (sseParse chunks))
      else fallbackState m (streamPhase decode m (sseParse chunks)) fb).events
    by_cases hg : (streamPhase decode m (sseParse chunks)).gotAnyToken
    · rw [if_pos hg]
      exact wOk_markModelDone m none _ (wInv_streamPhase decode m _)
    · rw [if_neg hg]
      exact wOk_fallbackState m _ fb (wInv_streamPhase decode m _)

theorem wOk_streamOneModel (decode : String → Option ChunkJson) (m prompt : String)
    (temp : ℚ) (up : UpstreamResult) (fb : FallbackResult) :
    WOk m (streamOneModel decode m prompt temp up fb).events :=
  wOk_workerState decode m up fb

/-! ## Orchestrator counting lemmas -/

theorem consumedP_self (p : SEvent → Bool) (ws : List (List SEvent)) :
    consumedP p ws ws = 0 := by
  induction ws with
  | nil => rfl
  | cons w ws ih => simp [consumedP, ih]

theorem sumP_cons (p : SEvent → Bool) (w : List SEvent) (ws : List (List SEvent)) :
    sumP p (w :: ws) = w.countP p + sumP p ws := by
  simp [sumP]

theorem consumedP_le_sumP (p : SEvent → Bool) :
    ∀ (ws qs : List (List SEvent)), consumedP p ws qs ≤ sumP p ws := by
  intro ws
  induction ws with
  | nil => intro qs; simp [consumedP, sumP]
  | cons w ws ih =>
    intro qs
    cases qs with
    | nil => simp [consumedP, sumP]
    | cons q qs' =>
      have h := ih qs'
      simp only [consumedP, sumP_cons]
      have hsub : w.countP p - q.countP p ≤ w.countP p := Nat.sub_le _ _
      omega

theorem consumedP_set (p : SEvent → Bool) :
    ∀ (i : Nat) (ws qs : List (List SEvent)) (e : SEvent) (rest : List SEvent),
      qs.get? i = some (e :: rest) →
      (∀ j q, qs.get? j = some q → ∃ w, ws.get? j = some w ∧ q <:+ w) →
      consumedP p ws (qs.set i rest) =
        consumedP p ws qs + (if p e then 1 else 0) := by
  intro i
  induction i with
  | zero =>
    intro ws qs e rest hq hsfx
    cases qs with
    | nil => simp at hq
    | cons q0 qs' =>
      have hq0 : q0 = e :: rest := by simpa using hq
      subst hq0
      obtain ⟨w, hw, hsf⟩ := hsfx 0 (e :: rest) (by simp)
      cases ws with
      | nil => simp at hw
      | cons w0 ws' =>
        have hw0 : w0 = w := (by simpa using hw : w0 = w)
        subst hw0
        have hle : (e :: rest).countP p ≤ w0.countP p := hsf.sublist.countP_le p
        rw [List.countP_cons] at hle
        show consumedP p (w0 :: ws') (rest :: qs') = _
        simp only [consumedP, List.countP_cons]
        by_cases hpe : p e <;> simp [hpe] at hle ⊢ <;> omega
  | succ i ih =>
    intro ws qs e rest hq hsfx
    cases qs with
    | nil => simp at hq
    | cons q0 qs' =>
      obtain ⟨w0, hw0, _⟩ := hsfx 0 q0 (by simp)
      cases ws with
      | nil => simp at hw0
      | cons w ws' =>
        have hq' : qs'.get? i = some (e :: rest) := by simpa using hq
        have hsfx' : ∀ j q, qs'.get? j = some q →
            ∃ w, ws'.get? j = some w ∧ q <:+ w := by
          intro j q hj
          obtain ⟨w', hw', hs'⟩ := hsfx (j + 1) q (by simpa using hj)
          exact ⟨w', by simpa using hw', hs'⟩
        show consumedP p (w :: ws') (q0 :: qs'.set i rest) = _
        simp only [consumedP]
        rw [ih ws' qs' e rest hq' hsfx']
        omega

theorem sumP_of_ones (p : SEvent → Bool) :
    ∀ (ws : List (List SEvent)),
      (∀ i w, ws.get? i = some w → w.countP p = 1) → sumP p ws = ws.length := by
  intro ws
  induction ws with
  | nil => intro _; rfl
  | cons w ws ih =>
    intro h
    rw [sumP_cons, h 0 w (by simp), ih (fun i w' hw' => h (i + 1) w' (by simpa using hw'))]
    simp [Nat.add_comm]

theorem consumedP_saturated (p : SEvent → Bool) :
    ∀ (ws qs : List (List SEvent)),
      (∀ i w, ws.get? i = some w → w.countP p = 1) →
      (∀ j q, qs.get? j = some q → ∃ w, ws.get? j = some w ∧ q <:+ w) →
      consumedP p ws qs = ws.length →
      ∀ i q, qs.get? i = some q → q.countP p = 0 := by
  intro ws
  induction ws with
  | nil =>
    intro qs _ hsfx _ i q hq
    obtain ⟨w, hw, _⟩ := hsfx i q hq
    simp at hw
  | cons w ws ih =>
    intro qs h1 hsfx hsum i q hq
    cases qs with
    | nil => simp at hq
    | cons q0 qs' =>
      have hw0 : w.countP p = 1 := h1 0 w (by simp)
      have hq0le : q0.countP p ≤ w.countP p := by
        obtain ⟨w', hw', hs'⟩ := hsfx 0 q0 (by simp)
        have heq : w = w' := by simpa using hw'
        subst heq
        exact hs'.sublist.countP_le p
      have hrest_le : consumedP p ws qs' ≤ sumP p ws := consumedP_le_sumP p ws qs'
      have hsum_ws : sumP p ws = ws.length :=
        sumP_of_ones p ws (fun j w' hw' => h1 (j + 1) w' (by simpa using hw'))
      simp only [consumedP, List.length_cons] at hsum
      have hq0 : q0.countP p = 0 := by omega
      have hrest : consumedP p ws qs' = ws.length := by omega
      have hsfx' : ∀ j q, qs'.get? j = some q → ∃ w, ws.get? j = some w ∧ q <:+ w := by
        intro j q hj
        obtain ⟨w', hw', hs'⟩ := hsfx (j + 1) q (by simpa using hj)
        exact ⟨w', by simpa using hw', hs'⟩
      cases i with
      | zero =>
        have hqq : q0 = q := by simpa using hq
        rw [← hqq]
        exact hq0
      | succ i =>
        exact ih qs' (fun j w' hw' => h1 (j + 1) w' (by simpa using hw')) hsfx' hrest
          i q (by simpa using hq)

theorem consumedP_eq_sumP (p : SEvent → Bool) :
    ∀ (ws qs : List (List SEvent)), qs.length = ws.length →
      (∀ i q, qs.get? i = some q → q.countP p = 0) →
      consumedP p ws qs = sumP p ws := by
  intro ws
  induction ws with
  | nil =>
    intro qs _ _
    simp [consumedP, sumP]
  | cons w ws ih =>
    intro qs hlen h0
    cases qs with
    | nil => simp at hlen
    | cons q0 qs' =>
      have hq0 : q0.countP p = 0 := h0 0 q0 (by simp)
      simp only [consumedP, sumP_cons, hq0, Nat.sub_zero]
      rw [ih qs' (by simpa using hlen)
        (fun j q hj => h0 (j + 1) q (by simpa using hj))]

theorem countP_termFor (m id : String) (l : List SEvent)
    (hids : ∀ e ∈ l, evId e = some m) (hcnt : l.countP terminalB = 1) :
    l.countP (termFor id) = if m = id then 1 else 0 := by
  by_cases h : m = id
  · subst h
    rw [if_pos rfl, ← hcnt]
    apply List.countP_congr
    intro e he
    simp [termFor, hids e he]
  · rw [if_neg h]
    apply List.countP_eq_zero.mpr
    intro e he hbe
    simp [termFor, hids e he] at hbe
    exact h hbe.2

theorem countP_msFor (m id : String) (l : List SEvent)
    (hids : ∀ e ∈ l, evId e = some m) (hcnt : l.countP msB = 1) :
    l.countP (msFor id) = if m = id then 1 else 0 := by
  by_cases h : m = id
  · subst h
    rw [if_pos rfl, ← hcnt]
    apply List.countP_congr
    intro e he
    simp [msFor, hids e he]
  · rw [if_neg h]
    apply List.countP_eq_zero.mpr
    intro e he hbe
    simp [msFor, hids e he] at hbe
    exact h hbe.2

theorem countP_msFor_le (id : String) (l : List SEvent) :
    l.countP (msFor id) ≤ l.countP msB :=
  List.countP_mono_left (fun e _ hb => by
    simp [msFor] at hb
    simp [hb.1])

theorem countP_termFor_le (id : String) (l : List SEvent) :
    l.countP (termFor id) ≤ l.countP terminalB :=
  List.countP_mono_left (fun e _ hb => by
    simp [termFor] at hb
    simp [hb.1])

/-- If a queue suffix contains no terminal event, it contains no
`model-start` either (the `model-start` is the head of a worker's list,
before its terminal event). -/
theorem msFor_zero_of_term_zero (m id : String) (w q : List SEvent)
    (hok : WOk m w) (hsfx : q <:+ w) (hterm : q.countP terminalB = 0) :
    q.countP (msFor id) = 0 := by
  obtain ⟨⟨tl, htl⟩, h2, h3, _⟩ := hok
  obtain ⟨pre, hpre⟩ := hsfx
  cases pre with
  | nil =>
    rw [List.nil_append] at hpre
    rw [hpre, h3] at hterm
    simp at hterm
  | cons x pre' =>
    have htlq : pre' ++ q = tl := by
      rw [htl] at hpre
      injection hpre with _ h
    have hqtl : q.countP msB ≤ tl.countP msB := by
      rw [← htlq, List.countP_append]
      omega
    have htl0 : tl.countP msB = 0 := by
      rw [htl, List.countP_cons] at h2
      have hmsb : (if msB (SEvent.modelStart m) = true then 1 else 0) = 1 := rfl
      rw [hmsb] at h2
      omega
    have hq0 : q.countP msB = 0 := by omega
    have := countP_msFor_le id q
    omega

theorem workerEvents_length (decode : String → Option ChunkJson) (prompt : String)
    (temp : ℚ) (models : List String) (ups : List UpstreamResult)
    (fbs : List FallbackResult) (hu : ups.length = models.length)
    (hf : fbs.length = models.length) :
    (workerEvents decode prompt temp models ups fbs).length = models.length := by
  simp [workerEvents, hu, hf]

theorem workerEvents_get (decode : String → Option ChunkJson) (prompt : String)
    (temp : ℚ) :
    ∀ (models : List String) (ups : List UpstreamResult) (fbs : List FallbackResult),
      ups.length = models.length → fbs.length = models.length →
      ∀ i w, (workerEvents decode prompt temp models ups fbs).get? i = some w →
        ∃ m, models.get? i = some m ∧ WOk m w := by
  intro models
  induction models with
  | nil =>
    intro ups fbs _ _ i w hw
    simp [workerEvents] at hw
  | cons m ms ih =>
    intro ups fbs hu hf i w hw
    cases ups with
    | nil => simp at hu
    | cons u us =>
      cases fbs with
      | nil => simp at hf
      | cons f fs =>
        have hstep : workerEvents decode prompt temp (m :: ms) (u :: us) (f :: fs) =
            (streamOneModel decode m prompt temp u f).events ::
              workerEvents decode prompt temp ms us fs := by
          simp [workerEvents]
        rw [hstep] at hw
        cases i with
        | zero =>
          have hww : (streamOneModel decode m prompt temp u f).events = w := by
            simpa using hw
          exact ⟨m, by simp, hww ▸ wOk_streamOneModel decode m prompt temp u f⟩
        | succ i =>
          obtain ⟨m', hm', hok⟩ := ih us fs (by simpa using hu) (by simpa using hf)
            i w (by simpa using hw)
          exact ⟨m', by simpa using hm', hok⟩

theorem sumP_termFor_workerEvents (decode : String → Option ChunkJson)
    (prompt : String) (temp : ℚ) (id : String) :
    ∀ (models : List String) (ups : List UpstreamResult) (fbs : List FallbackResult),
      ups.length = models.length → fbs.length = models.length →
      sumP (termFor id) (workerEvents decode prompt temp models ups fbs) =
        models.count id := by
  intro models
  induction models with
  | nil => intro ups fbs _ _; rfl
  | cons m ms ih =>
    intro ups fbs hu hf
    cases ups with
    | nil => simp at hu
    | cons u us =>
      cases fbs with
      | nil => simp at hf
      | cons f fs =>
        have hstep : workerEvents decode prompt temp (m :: ms) (u :: us) (f :: fs) =
            (streamOneModel decode m prompt temp u f).events ::
              workerEvents decode prompt temp ms us fs := by
          simp [workerEvents]
        obtain ⟨_, h2, h3, h4⟩ := wOk_streamOneModel decode m prompt temp u f
        rw [hstep, sumP_cons, countP_termFor m id _ h4 h3,
          ih us fs (by simpa using hu) (by simpa using hf), List.count_cons]
        by_cases h : m = id <;> simp [h, Nat.add_comm]

theorem sumP_msFor_workerEvents (decode : String → Option ChunkJson)
    (prompt : String) (temp : ℚ) (id : String) :
    ∀ (models : List String) (ups : List UpstreamResult) (fbs : List FallbackResult),
      ups.length = models.length → fbs.length = models.length →
      sumP (msFor id) (workerEvents decode prompt temp models ups fbs) =
        models.count id := by
  intro models
  induction models with
  | nil => intro ups fbs _ _; rfl
  | cons m ms ih =>
    intro ups fbs hu hf
    cases ups with
    | nil => simp at hu
    | cons u us =>
      cases fbs with
      | nil => simp at hf
      | cons f fs =>
        have hstep : workerEvents decode prompt temp (m :: ms) (u :: us) (f :: fs) =
            (streamOneModel decode m prompt temp u f).events ::
              workerEvents decode prompt temp ms us fs := by
          simp [workerEvents]
        obtain ⟨_, h2, h3, h4⟩ := wOk_streamOneModel decode m prompt temp u f
        rw [hstep, sumP_cons, countP_msFor m id _ h4 h2,
          ih us fs (by simpa using hu) (by simpa using hf), List.count_cons]
        by_cases h : m = id <;> simp [h, Nat.add_comm]

theorem sumP_termFor_of_wOk (id : String) :
    ∀ (models : List String) (ws : List (List SEvent)), ws.length = models.length →
      (∀ i w, ws.get? i = some w → ∃ m, models.get? i = some m ∧ WOk m w) →
      sumP (termFor id) ws = models.count id := by
  intro models
  induction models with
  | nil =>
    intro ws hlen _
    cases ws with
    | nil => rfl
    | cons w ws' => simp at hlen
  | cons m ms ih =>
    intro ws hlen hws
    cases ws with
    | nil => simp at hlen
    | cons w ws' =>
      obtain ⟨m0, hm0, hok⟩ := hws 0 w (by simp)
      have hm0' : m = m0 := by simpa using hm0
      subst hm0'
      rw [sumP_cons, countP_termFor m id w hok.2.2.2 hok.2.2.1,
        ih ws' (by simpa using hlen)
          (fun i w' hw' => by
            obtain ⟨m', hm', hok'⟩ := hws (i + 1) w' (by simpa using hw')
            exact ⟨m', by simpa using hm', hok'⟩),
        List.count_cons]
      by_cases h : m = id <;> simp [h, Nat.add_comm]

theorem sumP_msFor_of_wOk (id : String) :
    ∀ (models : List String) (ws : List (List SEvent)), ws.length = models.length →
      (∀ i w, ws.get? i = some w → ∃ m, models.get? i = some m ∧ WOk m w) →
      sumP (msFor id) ws = models.count id := by
  intro models
  induction models with
  | nil =>
    intro ws hlen _
    cases ws with
    | nil => rfl
    | cons w ws' => simp at hlen
  | cons m ms ih =>
    intro ws hlen hws
    cases ws with
    | nil => simp at hlen
    | cons w ws' =>
      obtain ⟨m0, hm0, hok⟩ := hws 0 w (by simp)
      have hm0' : m = m0 := by simpa using hm0
      subst hm0'
      rw [sumP_cons, countP_msFor m id w hok.2.2.2 hok.2.1,
        ih ws' (by simpa using hlen)
          (fun i w' hw' => by
            obtain ⟨m', hm', hok'⟩ := hws (i + 1) w' (by simpa using hw')
            exact ⟨m', by simpa using hm', hok'⟩),
        List.count_cons]
      by_cases h : m = id <;> simp [h, Nat.add_comm]

/-- When every queue has exhausted its terminal events, the per-model
counts already written to the response equal the request multiplicities. -/
theorem closed_counts (models : List String) (ws : List (List SEvent))
    (hws : ∀ i w, ws.get? i = some w → ∃ m, models.get? i = some m ∧ WOk m w)
    (hwslen : ws.length = models.length)
    (qs : List (List SEvent)) (out : List SEvent)
    (hlen : qs.length = ws.length)
    (hsfx : ∀ j q, qs.get? j = some q → ∃ w, ws.get? j = some w ∧ q <:+ w)
    (hzero : ∀ j q, qs.get? j = some q → q.countP terminalB = 0)
    (hcounts : ∀ p : SEvent → Bool, (∀ ms tq, p (.start ms tq) = false) →
      out.countP p = consumedP p ws qs) :
    (∀ id, out.countP (termFor id) = models.count id) ∧
    (∀ id, out.countP (msFor id) = models.count id) := by
  constructor
  · intro id
    have hz : ∀ j q, qs.get? j = some q → q.countP (termFor id) = 0 := by
      intro j q hjq
      have h1 := countP_termFor_le id q
      have h2 := hzero j q hjq
      omega
    rw [hcounts (termFor id) (fun _ _ => rfl),
      consumedP_eq_sumP (termFor id) ws qs hlen hz,
      sumP_termFor_of_wOk id models ws hwslen hws]
  · intro id
    have hz : ∀ j q, qs.get? j = some q → q.countP (msFor id) = 0 := by
      intro j q hjq
      obtain ⟨w, hw, hsf⟩ := hsfx j q hjq
      obtain ⟨m, _, hok⟩ := hws j w hw
      exact msFor_zero_of_term_zero m id w q hok hsf (hzero j q hjq)
    rw [hcounts (msFor id) (fun _ _ => rfl),
      consumedP_eq_sumP (msFor id) ws qs hlen hz,
      sumP_msFor_of_wOk id models ws hwslen hws]

/-! ## Orchestrator invariant -/

theorem get?_set_self {α : Type _} :
    ∀ (l : List α) (i : Nat) (a x : α), l.get? i = some x →
      (l.set i a).get? i = some a := by
  intro l
  induction l with
  | nil => intro i a x h; simp at h
  | cons b l ih =>
    intro i a x h
    cases i with
    | zero => simp
    | succ i =>
      simpa using ih i a x (by simpa using h)

theorem oWrite_ended (s : OrchState) (e : SEvent) (h : s.ended = true) :
    oWrite s e = s := by
  unfold oWrite
  rw [h]
  rfl

theorem oWrite_live (s : OrchState) (e : SEvent) (h : s.ended = false) :
    oWrite s e = { s with out := s.out ++ [e] } := by
  unfold oWrite
  rw [h]
  rfl

theorem oSafeEnd_ended (s : OrchState) (h : s.ended = true) : oSafeEnd s = s := by
  unfold oSafeEnd
  rw [h]
  rfl

theorem oSafeEnd_live (s : OrchState) (h : s.ended = false) :
    oSafeEnd s = { s with out := s.out ++ [.endEvt s.out.length], ended := true } := by
  unfold oSafeEnd
  rw [h]
  rfl

theorem orchStep_none (s : OrchState) (i : Nat) (h : s.queues.get? i = none) :
    orchStep s i = s := by
  unfold orchStep
  rw [h]

theorem orchStep_nil (s : OrchState) (i : Nat) (h : s.queues.get? i = some []) :
    orchStep s i = s := by
  unfold orchStep
  rw [h]

theorem orchStep_ended_cons (s : OrchState) (i : Nat) (e : SEvent)
    (rest : List SEvent) (hq : s.queues.get? i = some (e :: rest))
    (hended : s.ended = true) (hterm : terminalB e = false) :
    orchStep s i = { s with queues := s.queues.set i rest } := by
  unfold orchStep
  rw [hq]
  show (let s1 := oWrite { s with queues := s.queues.set i rest } e
        if terminalB e then
          let s2 := { s1 with doneCount := s1.doneCount + 1 }
          if s2.queues.length ≤ s2.doneCount then oSafeEnd s2 else s2
        else s1) = _
  rw [hterm, if_neg (by simp)]
  exact oWrite_ended { s with queues := s.queues.set i rest } e hended

theorem orchStep_live_cons (s : OrchState) (i : Nat) (e : SEvent)
    (rest : List SEvent) (hq : s.queues.get? i = some (e :: rest))
    (hended : s.ended = false) :
    orchStep s i =
      (let s1 : OrchState := { s with queues := s.queues.set i rest, out := s.out ++ [e] }
       if terminalB e then
        let s2 := { s1 with doneCount := s.doneCount + 1 }
        if s2.queues.length ≤ s2.doneCount then oSafeEnd s2 else s2
       else s1) := by
  unfold orchStep
  rw [hq]
  show (let s1 := oWrite { s with queues := s.queues.set i rest } e
        if terminalB e then
          let s2 := { s1 with doneCount := s1.doneCount + 1 }
          if s2.queues.length ≤ s2.doneCount then oSafeEnd s2 else s2
        else s1) = _
  rw [oWrite_live { s with queues := s.queues.set i rest } e hended]

/-- One schedule step preserves the orchestration invariant. -/
theorem orchInv_step (models : List String) (temp : ℚ) (ws : List (List SEvent))
    (hws : ∀ i w, ws.get? i = some w → ∃ m, models.get? i = some m ∧ WOk m w)
    (hwslen : ws.length = models.length)
    (s : OrchState) (hinv : OrchInv models temp ws s) (i : Nat) :
    OrchInv models temp ws (orchStep s i) := by
  rcases hq : s.queues.get? i with _ | q
  · rw [orchStep_none s i hq]
    exact hinv
  cases q with
  | nil =>
    rw [orchStep_nil s i hq]
    exact hinv
  | cons e rest =>
    obtain ⟨w, hwi, hsfx_i⟩ := hinv.sfx i (e :: rest) hq
    obtain ⟨mi, hmi, hoki⟩ := hws i w hwi
    have hid_e : evId e = some mi :=
      hoki.2.2.2 e (hsfx_i.sublist.subset (List.mem_cons_self e rest))
    have hstartB_e : isStartB e = false := by
      cases e <;> simp [isStartB, evId] at hid_e ⊢
    have hendB_e : isEndB e = false := by
      cases e <;> simp [isEndB, evId] at hid_e ⊢
    have hlen' : (s.queues.set i rest).length = ws.length := by
      rw [List.length_set]
      exact hinv.len_eq
    have hself : (s.queues.set i rest).get? i = some rest :=
      get?_set_self s.queues i rest _ hq
    have hsfx' : ∀ j q, (s.queues.set i rest).get? j = some q →
        ∃ w', ws.get? j = some w' ∧ q <:+ w' := by
      intro j q hjq
      by_cases hij : j = i
      · subst hij
        rw [hself] at hjq
        have hqrest : rest = q := by simpa using hjq
        subst hqrest
        exact ⟨w, hwi, (List.suffix_cons e rest).trans hsfx_i⟩
      · rw [List.get?_set_ne _ _ (fun heq => hij heq.symm)] at hjq
        exact hinv.sfx j q hjq
    have hconsumed : ∀ p : SEvent → Bool,
        consumedP p ws (s.queues.set i rest) =
          consumedP p ws s.queues + (if p e then 1 else 0) :=
      fun p => consumedP_set p i ws s.queues e rest hq hinv.sfx
    obtain ⟨tl, htl⟩ := hinv.head_start
    by_cases hend : s.ended = true
    · obtain ⟨ha, hb, hc, hd, hee⟩ := hinv.closed hend
      have hterm0 : (e :: rest).countP terminalB = 0 := ha i _ hq
      have hterm_e : terminalB e = false := by
        rw [List.countP_cons] at hterm0
        by_cases h : terminalB e = true
        · rw [h] at hterm0
          simp at hterm0
        · simpa using h
      have hrest0 : rest.countP terminalB = 0 := by
        rw [List.countP_cons, hterm_e] at hterm0
        simpa using hterm0
      rw [orchStep_ended_cons s i e rest hq hend hterm_e]
      refine ⟨hlen', hsfx', ?_, ⟨tl, htl⟩, hinv.start_count, ?_, ?_⟩
      · show s.doneCount = consumedP terminalB ws (s.queues.set i rest)
        rw [hconsumed terminalB, hterm_e]
        simpa using hinv.done_eq
      · intro hlive
        have hx : s.ended = false := hlive
        rw [hend] at hx
        simp at hx
      · intro _
        refine ⟨?_, hb, hc, hd, hee⟩
        intro j q hjq
        by_cases hij : j = i
        · subst hij
          rw [hself] at hjq
          have hqrest : rest = q := by simpa using hjq
          subst hqrest
          exact hrest0
        · rw [List.get?_set_ne _ _ (fun heq => hij heq.symm)] at hjq
          exact ha j q hjq
    · have hendf : s.ended = false := by simpa using hend
      obtain ⟨hend0, hcount⟩ := hinv.live hendf
      rw [orchStep_live_cons s i e rest hq hendf]
      show OrchInv models temp ws
        (if terminalB e then
          if (s.queues.set i rest).length ≤ s.doneCount + 1 then
            oSafeEnd { s with queues := s.queues.set i rest, out := s.out ++ [e], doneCount := s.doneCount + 1 }
          else { s with queues := s.queues.set i rest, out := s.out ++ [e], doneCount := s.doneCount + 1 }
        else { s with queues := s.queues.set i rest, out := s.out ++ [e] })
      by_cases hterm : terminalB e = true
      · rw [if_pos hterm]
        by_cases hflip : (s.queues.set i rest).length ≤ s.doneCount + 1
        · rw [if_pos hflip]
          rw [oSafeEnd_live _ (show ({ s with queues := s.queues.set i rest, out := s.out ++ [e], doneCount := s.doneCount + 1 } : OrchState).ended = false from hendf)]
          have hterm1 : ∀ j w', ws.get? j = some w' → w'.countP terminalB = 1 := by
            intro j w' hw'
            obtain ⟨m', _, hok'⟩ := hws j w' hw'
            exact hok'.2.2.1
          have hdone' : s.doneCount + 1 = consumedP terminalB ws (s.queues.set i rest) := by
            rw [hconsumed terminalB, hterm]
            simp [hinv.done_eq]
          have hsat : consumedP terminalB ws (s.queues.set i rest) = ws.length := by
            have hle1 := consumedP_le_sumP terminalB ws (s.queues.set i rest)
            rw [sumP_of_ones terminalB ws hterm1] at hle1
            have hlenq := hinv.len_eq
            omega
          have hzero := consumedP_saturated terminalB ws (s.queues.set i rest)
            hterm1 hsfx' hsat
          have hcounts' : ∀ p : SEvent → Bool, (∀ ms tq, p (.start ms tq) = false) →
              (s.out ++ [e]).countP p = consumedP p ws (s.queues.set i rest) := by
            intro p hp
            rw [countP_concat_event, hcount p hp, hconsumed p]
          obtain ⟨hbt, hbm⟩ := closed_counts models ws hws hwslen _ _ hlen' hsfx'
            hzero hcounts'
          refine ⟨hlen', hsfx', hdone', ?_, ?_, ?_, ?_⟩
          · exact ⟨tl ++ [e] ++ [SEvent.endEvt (s.out ++ [e]).length], by simp [htl]⟩
          · show ((s.out ++ [e]) ++ [SEvent.endEvt (s.out ++ [e]).length]).countP
              isStartB = 1
            rw [countP_concat_event, countP_concat_event, hinv.start_count, hstartB_e]
            rfl
          · intro hlive
            have hx : (true : Bool) = false := hlive
            simp at hx
          · intro _
            refine ⟨hzero, ?_, ?_, ?_, ?_⟩
            · intro id
              show ((s.out ++ [e]) ++ [SEvent.endEvt (s.out ++ [e]).length]).countP
                (termFor id) = models.count id
              rw [countP_concat_event, hbt id]
              rfl
            · intro id
              show ((s.out ++ [e]) ++ [SEvent.endEvt (s.out ++ [e]).length]).countP
                (msFor id) = models.count id
              rw [countP_concat_event, hbm id]
              rfl
            · show ((s.out ++ [e]) ++ [SEvent.endEvt (s.out ++ [e]).length]).countP
                isEndB = 1
              rw [countP_concat_event, countP_concat_event, hend0, hendB_e]
              rfl
            · exact ⟨(s.out ++ [e]).length, s.out ++ [e], rfl⟩
        · rw [if_neg hflip]
          refine ⟨hlen', hsfx', ?_, ?_, ?_, ?_, ?_⟩
          · show s.doneCount + 1 = consumedP terminalB ws (s.queues.set i rest)
            rw [hconsumed terminalB, hterm]
            simp [hinv.done_eq]
          · exact ⟨tl ++ [e], by simp [htl]⟩
          · show (s.out ++ [e]).countP isStartB = 1
            rw [countP_concat_event, hinv.start_count, hstartB_e]
            rfl
          · intro _
            refine ⟨?_, ?_⟩
            · show (s.out ++ [e]).countP isEndB = 0
              rw [countP_concat_event, hend0, hendB_e]
              rfl
            · intro p hp
              show (s.out ++ [e]).countP p = consumedP p ws (s.queues.set i rest)
              rw [countP_concat_event, hcount p hp, hconsumed p]
          · intro hcl
            have hx : s.ended = true := hcl
            rw [hendf] at hx
            simp at hx
      · rw [if_neg hterm]
        have hterm_e : terminalB e = false := by simpa using hterm
        refine ⟨hlen', hsfx', ?_, ?_, ?_, ?_, ?_⟩
        · show s.doneCount = consumedP terminalB ws (s.queues.set i rest)
          rw [hconsumed terminalB, hterm_e]
          simpa using hinv.done_eq
        · exact ⟨tl ++ [e], by simp [htl]⟩
        · show (s.out ++ [e]).countP isStartB = 1
          rw [countP_concat_event, hinv.start_count, hstartB_e]
          rfl
        · intro _
          refine ⟨?_, ?_⟩
          · show (s.out ++ [e]).countP isEndB = 0
            rw [countP_concat_event, hend0, hendB_e]
            rfl
          · intro p hp
            show (s.out ++ [e]).countP p = consumedP p ws (s.queues.set i rest)
            rw [countP_concat_event, hcount p hp, hconsumed p]
        · intro hcl
          have hx : s.ended = true := hcl
          rw [hendf] at hx
          simp at hx

theorem orchInv_init (models : List String) (temp : ℚ) (ws : List (List SEvent)) :
    OrchInv models temp ws (orchInit models temp ws) := by
  refine ⟨rfl, ?_, ?_, ⟨[], rfl⟩, ?_, ?_, ?_⟩
  · intro i q hq
    exact ⟨q, hq, List.suffix_refl q⟩
  · show (0 : Nat) = consumedP terminalB ws ws
    rw [consumedP_self]
  · show List.countP isStartB [SEvent.start models temp] = 1
    rfl
  · intro _
    refine ⟨?_, ?_⟩
    · rfl
    · intro p hp
      show List.countP p [SEvent.start models temp] = consumedP p ws ws
      rw [consumedP_self, List.countP_cons, List.countP_nil, hp]
      rfl
  · intro hcl
    have hx : (false : Bool) = true := hcl
    simp at hx

theorem orchInv_fold (models : List String) (temp : ℚ) (ws : List (List SEvent))
    (hws : ∀ i w, ws.get? i = some w → ∃ m, models.get? i = some m ∧ WOk m w)
    (hwslen : ws.length = models.length) :
    ∀ (sched : List Nat) (s : OrchState), OrchInv models temp ws s →
      OrchInv models temp ws (sched.foldl orchStep s) := by
  intro sched
  induction sched with
  | nil => intro s hs; exact hs
  | cons i sched ih =>
    intro s hs
    exact ih _ (orchInv_step models temp ws hws hwslen s hs i)

/-- The complete specification of one orchestrated request (exhausting
schedule): exactly one `start` at the head, per-model-identifier
`model-start` and terminal counts equal to the request multiplicities,
exactly one `end` which is the last event, and the stream closed. -/
theorem orchRun_spec (decode : String → Option ChunkJson) (models : List String)
    (prompt : String) (temp : ℚ) (ups : List UpstreamResult)
    (fbs : List FallbackResult) (sched : List Nat)
    (hu : ups.length = models.length) (hf : fbs.length = models.length)
    (hexh : ∀ q ∈ (sched.foldl orchStep
      (orchInit models temp (workerEvents decode prompt temp models ups fbs))).queues,
      q = []) :
    (orchRun decode models prompt temp ups fbs sched).out.head? =
      some (.start models temp) ∧
    (orchRun decode models prompt temp ups fbs sched).out.countP isStartB = 1 ∧
    (∀ id, (orchRun decode models prompt temp ups fbs sched).out.countP (msFor id) =
      models.count id) ∧
    (∀ id, (orchRun decode models prompt temp ups fbs sched).out.countP (termFor id) =
      models.count id) ∧
    (orchRun decode models prompt temp ups fbs sched).out.countP isEndB = 1 ∧
    (∃ n l, (orchRun decode models prompt temp ups fbs sched).out =
      l ++ [SEvent.endEvt n]) ∧
    (orchRun decode models prompt temp ups fbs sched).ended = true := by
  have hws := workerEvents_get decode prompt temp models ups fbs hu hf
  have hwslen := workerEvents_length decode prompt temp models ups fbs hu hf
  have hinv := orchInv_fold models temp _ hws hwslen sched _
    (orchInv_init models temp (workerEvents decode prompt temp models ups fbs))
  have hrun : orchRun decode models prompt temp ups fbs sched =
      oSafeEnd (sched.foldl orchStep
        (orchInit models temp (workerEvents decode prompt temp models ups fbs))) := rfl
  by_cases hfe : (sched.foldl orchStep
      (orchInit models temp (workerEvents decode prompt temp models ups fbs))).ended = true
  · rw [hrun, oSafeEnd_ended _ hfe]
    obtain ⟨ha, hb, hc, hd, n, l, hout⟩ := hinv.closed hfe
    obtain ⟨tl, htl⟩ := hinv.head_start
    refine ⟨?_, hinv.start_count, hc, hb, hd, ⟨n, l, hout⟩, hfe⟩
    rw [htl]
    rfl
  · have hfef : (sched.foldl orchStep
        (orchInit models temp (workerEvents decode prompt temp models ups fbs))).ended =
        false := by simpa using hfe
    obtain ⟨hend0, hcount⟩ := hinv.live hfef
    obtain ⟨tl, htl⟩ := hinv.head_start
    have hzero : ∀ j q, (sched.foldl orchStep
        (orchInit models temp (workerEvents decode prompt temp models ups fbs))).queues.get?
          j = some q → q.countP terminalB = 0 := by
      intro j q hjq
      have hq : q = [] := hexh q (List.get?_mem hjq)
      rw [hq]
      rfl
    have hcounts' : ∀ p : SEvent → Bool, (∀ ms tq, p (.start ms tq) = false) →
        (sched.foldl orchStep
          (orchInit models temp (workerEvents decode prompt temp models ups fbs))).out.countP
            p = consumedP p (workerEvents decode prompt temp models ups fbs)
              (sched.foldl orchStep
                (orchInit models temp (workerEvents decode prompt temp models ups fbs))).queues :=
      hcount
    obtain ⟨hbt, hbm⟩ := closed_counts models _ hws hwslen _ _ hinv.len_eq hinv.sfx
      hzero hcounts'
    rw [hrun, oSafeEnd_live _ hfef]
    refine ⟨?_, ?_, ?_, ?_, ?_, ?_, rfl⟩
    · show ((sched.foldl orchStep
        (orchInit models temp (workerEvents decode prompt temp models ups fbs))).out ++
          [SEvent.endEvt _]).head? = some (SEvent.start models temp)
      rw [htl]
      rfl
    · show ((sched.foldl orchStep
        (orchInit models temp (workerEvents decode prompt temp models ups fbs))).out ++
          [SEvent.endEvt _]).countP isStartB = 1
      rw [countP_concat_event, hinv.start_count]
      rfl
    · intro id
      show ((sched.foldl orchStep
        (orchInit models temp (workerEvents decode prompt temp models ups fbs))).out ++
          [SEvent.endEvt _]).countP (msFor id) = models.count id
      rw [countP_concat_event, hbm id]
      rfl
    · intro id
      show ((sched.foldl orchStep
        (orchInit models temp (workerEvents decode prompt temp models ups fbs))).out ++
          [SEvent.endEvt _]).countP (termFor id) = models.count id
      rw [countP_concat_event, hbt id]
      rfl
    · show ((sched.foldl orchStep
        (orchInit models temp (workerEvents decode prompt temp models ups fbs))).out ++
          [SEvent.endEvt _]).countP isEndB = 1
      rw [countP_concat_event, hend0]
      rfl
    · exact ⟨_, _, rfl⟩

/-! ## Helper lemmas for the claim theorems -/

theorem oSafeEnd_ends (s : OrchState) : (oSafeEnd s).ended = true := by
  by_cases h : s.ended = true
  · rw [oSafeEnd_ended s h]
    exact h
  · rw [oSafeEnd_live s (by simpa using h)]

theorem oSafeEnd_queues (s : OrchState) : (oSafeEnd s).queues = s.queues := by
  by_cases h : s.ended = true
  · rw [oSafeEnd_ended s h]
  · rw [oSafeEnd_live s (by simpa using h)]

theorem oWrite_queues (s : OrchState) (e : SEvent) : (oWrite s e).queues = s.queues := by
  by_cases h : s.ended = true
  · rw [oWrite_ended s e h]
  · rw [oWrite_live s e (by simpa using h)]

theorem orchStep_ended_out (s : OrchState) (i : Nat) (h : s.ended = true) :
    (orchStep s i).out = s.out ∧ (orchStep s i).ended = true := by
  rcases hqi : s.queues.get? i with _ | q
  · rw [orchStep_none s i hqi]
    exact ⟨rfl, h⟩
  rcases q with _ | ⟨e', rest⟩
  · rw [orchStep_nil s i hqi]
    exact ⟨rfl, h⟩
  have h1 : oWrite { s with queues := s.queues.set i rest } e' =
      { s with queues := s.queues.set i rest } := oWrite_ended _ _ h
  have hstep : orchStep s i =
      (if terminalB e' then
        (if ({ s with queues := s.queues.set i rest, doneCount := s.doneCount + 1 } : OrchState).queues.length ≤ s.doneCount + 1 then
          oSafeEnd { s with queues := s.queues.set i rest, doneCount := s.doneCount + 1 }
        else { s with queues := s.queues.set i rest, doneCount := s.doneCount + 1 })
      else { s with queues := s.queues.set i rest }) := by
    unfold orchStep
    rw [hqi]
    show (let s1 := oWrite { s with queues := s.queues.set i rest } e'
          if terminalB e' then
            let s2 := { s1 with doneCount := s1.doneCount + 1 }
            if s2.queues.length ≤ s2.doneCount then oSafeEnd s2 else s2
          else s1) = _
    rw [h1]
  rw [hstep]
  by_cases ht : terminalB e' = true
  · rw [if_pos ht]
    by_cases hlen : ({ s with queues := s.queues.set i rest, doneCount := s.doneCount + 1 } : OrchState).queues.length ≤ s.doneCount + 1
    · rw [if_pos hlen,
        oSafeEnd_ended ({ s with queues := s.queues.set i rest, doneCount := s.doneCount + 1 } : OrchState) h]
      exact ⟨rfl, h⟩
    · rw [if_neg hlen]
      exact ⟨rfl, h⟩
  · rw [if_neg ht]
    exact ⟨rfl, h⟩

theorem orchStep_queues_other (s : OrchState) (i j : Nat) (hij : i ≠ j) :
    (orchStep s i).queues.get? j = s.queues.get? j := by
  rcases hqi : s.queues.get? i with _ | q
  · rw [orchStep_none s i hqi]
  rcases q with _ | ⟨e', rest⟩
  · rw [orchStep_nil s i hqi]
  have key : ∀ (s1 : OrchState), s1.queues = s.queues.set i rest →
      (if terminalB e' then
        (let s2 := { s1 with doneCount := s1.doneCount + 1 }
         if s2.queues.length ≤ s2.doneCount then oSafeEnd s2 else s2)
       else s1).queues = s.queues.set i rest := by
    intro s1 hs1
    by_cases ht : terminalB e' = true
    · rw [if_pos ht]
      show (if s1.queues.length ≤ s1.doneCount + 1 then
          oSafeEnd { s1 with doneCount := s1.doneCount + 1 }
        else { s1 with doneCount := s1.doneCount + 1 }).queues = _
      by_cases hl : s1.queues.length ≤ s1.doneCount + 1
      · rw [if_pos hl, oSafeEnd_queues]
        exact hs1
      · rw [if_neg hl]
        exact hs1
    · rw [if_neg ht]
      exact hs1
  have hq : (orchStep s i).queues = s.queues.set i rest := by
    unfold orchStep
    rw [hqi]
    show (let s1 := oWrite { s with queues := s.queues.set i rest } e'
          if terminalB e' then
            let s2 := { s1 with doneCount := s1.doneCount + 1 }
            if s2.queues.length ≤ s2.doneCount then oSafeEnd s2 else s2
          else s1).queues = _
    exact key _ (oWrite_queues _ _)
  rw [hq, List.get?_set_ne _ _ hij]

theorem clampTemp_mem (x : ℚ) : 0 ≤ clampTemp x ∧ clampTemp x ≤ 2 := by
  unfold clampTemp
  by_cases h0 : x < 0
  · rw [if_pos h0]
    norm_num
  · rw [if_neg h0]
    by_cases h2 : x > 2
    · rw [if_pos h2]
      norm_num
    · rw [if_neg h2]
      constructor <;> linarith [not_lt.mp h0, not_lt.mp h2]

theorem resolveTemperature_mem (tr : TempRaw) :
    0 ≤ resolveTemperature tr ∧ resolveTemperature tr ≤ 2 := by
  cases tr with
  | num x => exact clampTemp_mem x
  | str s =>
    show 0 ≤ (match parseFloat? s with
        | none => clampTemp (7 / 10)
        | some v => clampJs v : ℚ) ∧ (match parseFloat? s with
        | none => clampTemp (7 / 10)
        | some v => clampJs v : ℚ) ≤ 2
    cases parseFloat? s with
    | none => exact clampTemp_mem _
    | some v =>
      cases v with
      | finite q => exact clampTemp_mem q
      | posInf => exact ⟨by norm_num [clampJs], by norm_num [clampJs]⟩
      | negInf => exact ⟨by norm_num [clampJs], by norm_num [clampJs]⟩
  | absent => exact clampTemp_mem _

theorem handlePost_stream_inv (b : Body) (ms : List String) (t : ℚ)
    (hb : handlePost (some b) = .streamResponse ms t) :
    ms = b.models ∧ t = resolveTemperature b.temperature := by
  have hred : handlePost (some b) =
      (if (!validateBody b) = true then PostResult.invalidBody
       else if (!(b.models.filter isEmbeddingModel).isEmpty) = true then
         PostResult.embeddingRejected (b.models.filter isEmbeddingModel)
       else PostResult.streamResponse b.models (resolveTemperature b.temperature)) := rfl
  rw [hred] at hb
  by_cases hv : validateBody b = true
  · rw [if_neg (by simp [hv])] at hb
    by_cases he : (b.models.filter isEmbeddingModel).isEmpty = true
    · rw [if_neg (by simp [he])] at hb
      injection hb with h1 h2
      exact ⟨h1.symm, h2.symm⟩
    · rw [if_pos (by simp [Bool.not_eq_true] at he ⊢; exact he)] at hb
      simp at hb
  · rw [if_pos (by simp [Bool.not_eq_true] at hv ⊢; exact hv)] at hb
    simp at hb

theorem fallback_events_fail (m msg : String) (s : WState)
    (hc : s.modelCompleted = false) :
    (fallbackState m s (.fail msg)).events =
      s.events ++ [SEvent.errorEvt m msg s.now] := by
  show (markModelDone m (some msg) s).events = _
  unfold markModelDone
  rw [if_neg (by simp [hc])]
  rfl

theorem fallback_counts_ok (m text : String) (u : Option UsageJson) (s : WState)
    (hs : WInv m s) (hg : s.gotAnyToken = false) (hc : s.modelCompleted = false)
    (ht : ¬ text = "") :
    (fallbackState m s (.ok text u)).events.countP ttfbB = 1 ∧
    (fallbackState m s (.ok text u)).events.countP deltaB = 1 ∧
    (fallbackState m s (.ok text u)).events.countP mdB = 1 ∧
    (fallbackState m s (.ok text u)).events.countP errB = 0 := by
  obtain ⟨-, h2, h3, h4, h5, h6, h7, -⟩ := hs
  have hsf : s.sawFirstToken = false := h7.trans hg
  have h5' : s.events.countP ttfbB = 0 := by
    rw [h5, if_neg (by simp [hsf])]
  have h6' : s.events.countP deltaB = 0 := h6 hg
  have h4' : s.events.countP mdB = 0 := by
    rw [h4, if_neg (by simp [hc])]
  have hred : fallbackState m s (.ok text u) =
      markModelDone m none (match u with
        | some uj => wWrite { wWrite { wWrite s (.ttfb m s.now) with
            sawFirstToken := true } (.delta m text) with gotAnyToken := true }
            (usageEvent m uj)
        | none => { wWrite { wWrite s (.ttfb m s.now) with
            sawFirstToken := true } (.delta m text) with gotAnyToken := true }) := by
    show (let s1 := if text = "" then s
        else
          let sa := if s.sawFirstToken then s
            else { wWrite s (.ttfb m s.now) with sawFirstToken := true }
          { wWrite sa (.delta m text) with gotAnyToken := true }
      let s2 := match u with
        | some uj => wWrite s1 (usageEvent m uj)
        | none => s1
      markModelDone m none s2) = _
    rw [if_neg ht, if_neg (by simp [hsf])]
  rw [hred]
  cases u with
  | none =>
    have hev : (markModelDone m none ({ wWrite { wWrite s (.ttfb m s.now) with
        sawFirstToken := true } (.delta m text) with gotAnyToken := true })).events =
        ((s.events ++ [SEvent.ttfb m s.now]) ++ [SEvent.delta m text]) ++
          [SEvent.modelDone m (s.now + 1 + 1)] := by
      unfold markModelDone
      rw [if_neg (by simp [wWrite, hc])]
      rfl
    rw [hev]
    refine ⟨?_, ?_, ?_, ?_⟩ <;>
      simp only [countP_concat_event, h5', h6', h4', h3] <;> rfl
  | some uj =>
    have hev : (markModelDone m none (wWrite ({ wWrite { wWrite s (.ttfb m s.now) with
        sawFirstToken := true } (.delta m text) with gotAnyToken := true })
        (usageEvent m uj))).events =
        (((s.events ++ [SEvent.ttfb m s.now]) ++ [SEvent.delta m text]) ++
          [usageEvent m uj]) ++ [SEvent.modelDone m (s.now + 1 + 1 + 1)] := by
      unfold markModelDone
      rw [if_neg (by simp [wWrite, hc])]
      rfl
    rw [hev]
    refine ⟨?_, ?_, ?_, ?_⟩ <;>
      simp only [countP_concat_event, h5', h6', h4', h3, usageEvent] <;> rfl

/-! ## Claim theorems -/

/-- C1: for every valid request with the given model list, any complete
interleaving of the workers yields a merged stream with the `start` event
first and exactly one of it, for each requested model identifier exactly
as many `model-start` and terminal (`model-done`/`error`) events as the
identifier was requested, exactly one `end` event, the `end` event last,
and every terminal event strictly before `end`. -/
theorem c1_merged_stream_invariant (decode : String → Option ChunkJson)
    (models : List String) (prompt : String) (temp : ℚ) (ups : List UpstreamResult)
    (fbs : List FallbackResult) (sched : List Nat)
    (hu : ups.length = models.length) (hf : fbs.length = models.length)
    (hexh : ∀ q ∈ (sched.foldl orchStep (orchInit models temp
      (workerEvents decode prompt temp models ups fbs))).queues, q = []) :
    (orchRun decode models prompt temp ups fbs sched).out.head? =
      some (SEvent.start models temp) ∧
    (orchRun decode models prompt temp ups fbs sched).out.countP isStartB = 1 ∧
    (∀ id, (orchRun decode models prompt temp ups fbs sched).out.countP (msFor id) =
      models.count id) ∧
    (∀ id, (orchRun decode models prompt temp ups fbs sched).out.countP (termFor id) =
      models.count id) ∧
    (orchRun decode models prompt temp ups fbs sched).out.countP isEndB = 1 ∧
    (∃ n, (orchRun decode models prompt temp ups fbs sched).out.getLast? =
      some (SEvent.endEvt n)) ∧
    (∀ j e, (orchRun decode models prompt temp ups fbs sched).out.get? j = some e →
      terminalB e = true →
      j + 1 < (orchRun decode models prompt temp ups fbs sched).out.length) := by
  obtain ⟨h1, h2, h3, h4, h5, ⟨n, l, hout⟩, -⟩ :=
    orchRun_spec decode models prompt temp ups fbs sched hu hf hexh
  refine ⟨h1, h2, h3, h4, h5, ?_, ?_⟩
  · rw [hout]
    exact ⟨n, List.getLast?_concat _⟩
  · intro j e hj ht
    have hlen : (orchRun decode models prompt temp ups fbs sched).out.length =
        l.length + 1 := by
      rw [hout, List.length_append]
      rfl
    obtain ⟨hlt, -⟩ := List.get?_eq_some.mp hj
    rcases Nat.lt_or_ge j l.length with hjl | hjl
    · omega
    · have hje : j = l.length := by omega
      rw [hout, hje, List.get?_concat_length] at hj
      have he : e = SEvent.endEvt n := by
        injection hj with hj'
        exact hj'.symm
      rw [he] at ht
      simp [terminalB] at ht

/-- C2 counterexample: an upstream stream consisting only of the payload
`data: [DONE]` yields zero delta tokens, so the fallback call is made
(two upstream calls), but the `[DONE]` payload has already run
`markModelDone`, so the model's event sequence is `model-start` followed
by `model-done` and a failed fallback emits no `error` event at all —
contrary to the claim that a failed fallback yields one `error` and that
the `[DONE]`-only stream takes the fallback (not already-terminal) path. -/
theorem c2_counterexample :
    (streamOneModel (fun _ => none) "a" "hi" 1
      (.ok ["data: [DONE]\n\n"]) (.fail "boom")).events =
      [SEvent.modelStart "a", SEvent.modelDone "a" 1] ∧
    (streamOneModel (fun _ => none) "a" "hi" 1
      (.ok ["data: [DONE]\n\n"]) (.fail "boom")).calls.length = 2 ∧
    (streamOneModel (fun _ => none) "a" "hi" 1
      (.ok ["data: [DONE]\n\n"]) (.fail "boom")).events.countP errB = 0 := by
  refine ⟨?_, ?_, ?_⟩ <;> decide

/-- C2 (amended): when the upstream streaming call succeeds with zero
delta tokens, exactly one extra non-streaming fallback call with the same
prompt and temperature is made; provided additionally that the stream did
not already complete the model (no `[DONE]` payload was seen), a failed
fallback yields exactly one `error` and no `model-done`, and a successful
fallback with non-empty text yields exactly one `ttfb`, one `delta`, one
`model-done` and no `error`. -/
theorem c2_amended_fallback (decode : String → Option ChunkJson) (m prompt : String)
    (temp : ℚ) (chunks : List String) (fb : FallbackResult)
    (hg : (streamPhase decode m (sseParse chunks)).gotAnyToken = false) :
    (streamOneModel decode m prompt temp (.ok chunks) fb).calls =
      [⟨prompt, temp, true⟩, ⟨prompt, temp, false⟩] ∧
    ((streamPhase decode m (sseParse chunks)).modelCompleted = false →
      (∀ msg, fb = .fail msg →
        (streamOneModel decode m prompt temp (.ok chunks) fb).events.countP errB = 1 ∧
        (streamOneModel decode m prompt temp (.ok chunks) fb).events.countP mdB = 0) ∧
      (∀ text u, fb = .ok text u → ¬ text = "" →
        (streamOneModel decode m prompt temp (.ok chunks) fb).events.countP ttfbB = 1 ∧
        (streamOneModel decode m prompt temp (.ok chunks) fb).events.countP deltaB = 1 ∧
        (streamOneModel decode m prompt temp (.ok chunks) fb).events.countP mdB = 1 ∧
        (streamOneModel decode m prompt temp (.ok chunks) fb).events.countP errB = 0)) := by
  have hws : (streamOneModel decode m prompt temp (.ok chunks) fb).events =
      (fallbackState m (streamPhase decode m (sseParse chunks)) fb).events := by
    show (if (streamPhase decode m (sseParse chunks)).gotAnyToken = true then
        markModelDone m none (streamPhase decode m (sseParse chunks))
      else fallbackState m (streamPhase decode m (sseParse chunks)) fb).events = _
    rw [if_neg (by simp [hg])]
  constructor
  · show (if (streamPhase decode m (sseParse chunks)).gotAnyToken = true then
        [(⟨prompt, temp, true⟩ : CallRec)]
      else [⟨prompt, temp, true⟩, ⟨prompt, temp, false⟩]) = _
    rw [if_neg (by simp [hg])]
  · intro hc
    constructor
    · intro msg hfb
      subst hfb
      obtain ⟨-, -, h3, h4, -, -, -, -⟩ := wInv_streamPhase decode m (sseParse chunks)
      have hev := fallback_events_fail m msg _ hc
      rw [hws, hev]
      constructor
      · rw [countP_concat_event, h3]
        rfl
      · rw [countP_concat_event, h4, hc]
        rfl
    · intro text u hfb ht
      subst hfb
      have hcounts := fallback_counts_ok m text u _
        (wInv_streamPhase decode m (sseParse chunks)) hg hc ht
      rw [hws]
      exact hcounts

/-- C3: a model whose upstream streaming call fails outright emits exactly
`model-start` then one `error` carrying that model's identifier, makes
only the single streaming call (no fallback), and — whatever the
upstream results of the individual workers, failures included — every
other requested identifier still receives its full complement of terminal
events in the merged stream. -/
theorem c3_upstream_failure_isolated (decode : String → Option ChunkJson)
    (models : List String) (prompt : String) (temp : ℚ) (ups : List UpstreamResult)
    (fbs : List FallbackResult) (sched : List Nat) (m msg : String)
    (fb : FallbackResult)
    (hu : ups.length = models.length) (hf : fbs.length = models.length)
    (hexh : ∀ q ∈ (sched.foldl orchStep (orchInit models temp
      (workerEvents decode prompt temp models ups fbs))).queues, q = []) :
    (streamOneModel decode m prompt temp (.fail msg) fb).events =
      [SEvent.modelStart m, SEvent.errorEvt m msg 1] ∧
    (streamOneModel decode m prompt temp (.fail msg) fb).calls =
      [⟨prompt, temp, true⟩] ∧
    (∀ id, (orchRun decode models prompt temp ups fbs sched).out.countP (termFor id) =
      models.count id) := by
  refine ⟨rfl, rfl, ?_⟩
  exact (orchRun_spec decode models prompt temp ups fbs sched hu hf hexh).2.2.2.1

/-- C4 (refuted intent): in the code the `setTimeout(safeEnd, 120000)`
watchdog is only registered after `await Promise.allSettled(tasks)` has
resolved, i.e. after every worker has already reached a terminal state
and the unconditional `safeEnd()` has run.  Hence the watchdog never runs
concurrently with the workers and can never force `end` early: every
completed run is already ended, and a later watchdog firing of `safeEnd`
is a no-op by idempotence. -/
theorem c4_watchdog_not_concurrent (decode : String → Option ChunkJson)
    (models : List String) (prompt : String) (temp : ℚ) (ups : List UpstreamResult)
    (fbs : List FallbackResult) (sched : List Nat) :
    (orchRun decode models prompt temp ups fbs sched).ended = true ∧
    oSafeEnd (orchRun decode models prompt temp ups fbs sched) =
      orchRun decode models prompt temp ups fbs sched := by
  have h1 : (orchRun decode models prompt temp ups fbs sched).ended = true :=
    oSafeEnd_ends _
  exact ⟨h1, oSafeEnd_ended _ h1⟩

/-- C5: the SSE frame parser is invariant under refragmentation — any
list of chunks produces exactly the payload sequence of the single
unfragmented chunk obtained by joining them, including the end-of-input
flush of an accumulated unterminated payload. -/
theorem c5_sse_refragmentation_invariant (chunks : List String) :
    sseParse chunks = sseParse [String.join chunks] :=
  sseParse_refragment chunks

/-- C6: in the client reconstructor, per-model content is append-only
(one event never shortens it), folding any event list appends exactly the
concatenation of that model's `delta` texts in order, and a full client
run over arbitrarily fragmented chunks yields, for each model, the
concatenation of the `delta` texts of the complete lines of the
defragmented stream (given that no `end` line occurs before the last
complete line, as in every server-produced stream). -/
theorem c6_client_content_append_only (p : String → Option SEvent) (st : ClientState)
    (e : SEvent) (id : String) (chunks : List String)
    (h : ∀ l ∈ (lineSplit (concatChunks chunks)).1.dropLast, endLineB p l = false) :
    (contentOf st id).length ≤ (contentOf (applyClientEvent st e) id).length ∧
    (∀ evts : List SEvent, contentOf (evts.foldl applyClientEvent st) id =
      contentOf st id ++ strConcat (deltaTexts id evts)) ∧
    contentOf (clientRun p chunks) id =
      strConcat (lineDeltas p id (lineSplit (concatChunks chunks)).1) :=
  ⟨contentOf_apply_mono st e id, fun evts => contentOf_foldl_events evts st id,
   clientRun_content p chunks id h⟩

/-- C7: whenever the POST handler starts a streaming response, the
temperature it resolved lies in `[0, 2]`; an absent temperature resolves
to the default `0.7`; the number `3` is clamped to `2`; and every
upstream call a worker makes carries exactly the resolved temperature. -/
theorem c7_temperature_clamped (b : Body) (ms : List String) (t : ℚ)
    (hb : handlePost (some b) = .streamResponse ms t) :
    t = resolveTemperature b.temperature ∧
    (0 ≤ t ∧ t ≤ 2) ∧
    resolveTemperature TempRaw.absent = 7 / 10 ∧
    resolveTemperature (TempRaw.num 3) = 2 ∧
    (∀ decode m prompt up, ∀ c ∈ workerCalls decode m prompt t up,
      c.temperature = t) := by
  obtain ⟨-, ht⟩ := handlePost_stream_inv b ms t hb
  refine ⟨ht, ?_, ?_, ?_, ?_⟩
  · rw [ht]
    exact resolveTemperature_mem _
  · show clampTemp (7 / 10) = 7 / 10
    norm_num [clampTemp]
  · show clampTemp 3 = 2
    norm_num [clampTemp]
  · intro decode m prompt up c hcm
    cases up with
    | ok chunks =>
      by_cases hgg : (streamPhase decode m (sseParse chunks)).gotAnyToken = true
      · have hcalls : workerCalls decode m prompt t (.ok chunks) =
            [⟨prompt, t, true⟩] := by
          show (if (streamPhase decode m (sseParse chunks)).gotAnyToken = true then
              [(⟨prompt, t, true⟩ : CallRec)]
            else [⟨prompt, t, true⟩, ⟨prompt, t, false⟩]) = _
          rw [if_pos hgg]
        rw [hcalls] at hcm
        simp at hcm
        rw [hcm]
      · have hcalls : workerCalls decode m prompt t (.ok chunks) =
            [⟨prompt, t, true⟩, ⟨prompt, t, false⟩] := by
          show (if (streamPhase decode m (sseParse chunks)).gotAnyToken = true then
              [(⟨prompt, t, true⟩ : CallRec)]
            else [⟨prompt, t, true⟩, ⟨prompt, t, false⟩]) = _
          rw [if_neg hgg]
        rw [hcalls] at hcm
        simp at hcm
        rcases hcm with hcm | hcm <;> rw [hcm]
    | fail msg =>
      simp only [workerCalls] at hcm
      simp at hcm
      rw [hcm]
    | okPartial chunks msg =>
      simp only [workerCalls] at hcm
      simp at hcm
      rw [hcm]

/-- C8: any request in which some model identifier contains the substring
`embed` (case-insensitively) is answered with HTTP 400 — either the
schema rejection or the embedding guard — and never reaches the
stream-creating branch, so no worker is started. -/
theorem c8_embedding_rejected_before_stream (b : Body) (m : String)
    (hm : m ∈ b.models) (he : isEmbeddingModel m = true) :
    httpStatus (handlePost (some b)) = 400 ∧
    ∀ ms t, ¬ handlePost (some b) = PostResult.streamResponse ms t := by
  have hred : handlePost (some b) =
      (if (!validateBody b) = true then PostResult.invalidBody
       else if (!(b.models.filter isEmbeddingModel).isEmpty) = true then
         PostResult.embeddingRejected (b.models.filter isEmbeddingModel)
       else PostResult.streamResponse b.models (resolveTemperature b.temperature)) := rfl
  by_cases hv : validateBody b = true
  · have hmem : m ∈ b.models.filter isEmbeddingModel := List.mem_filter.mpr ⟨hm, he⟩
    have hff : (b.models.filter isEmbeddingModel).isEmpty = false := by
      cases hfe : b.models.filter isEmbeddingModel with
      | nil =>
        rw [hfe] at hmem
        simp at hmem
      | cons x xs => rfl
    rw [hred, if_neg (by simp [hv]), if_pos (by rw [hff]; rfl)]
    exact ⟨rfl, fun ms t hco => by simp at hco⟩
  · have hvf : validateBody b = false := by
      cases hbb : validateBody b with
      | false => rfl
      | true => exact absurd hbb hv
    rw [hred, if_pos (by rw [hvf]; rfl)]
    exact ⟨rfl, fun ms t hco => by simp at hco⟩

/-- C9: a string temperature whose JS `parseFloat` is `NaN` (no decimal
or `Infinity` prefix after the JS whitespace skip) is silently replaced
by the default `0.7` — the request is still accepted and streams with
temperature `0.7` (schema validation never inspects the string) — while
a string parsing to a finite value is clamped exactly like a number, and
`"Infinity"` (not `NaN` in JS) is clamped to `2`. -/
theorem c9_string_temperature_default (s : String) (b : Body)
    (hs : parseFloat? s = none) (hb : b.temperature = TempRaw.str s)
    (hv : validateBody b = true)
    (he : (b.models.filter isEmbeddingModel).isEmpty = true) :
    resolveTemperature (TempRaw.str s) = 7 / 10 ∧
    handlePost (some b) = PostResult.streamResponse b.models (7 / 10) ∧
    (∀ s' q, parseFloat? s' = some (JsFloat.finite q) →
      resolveTemperature (TempRaw.str s') = clampTemp q) ∧
    resolveTemperature (TempRaw.str "Infinity") = 2 := by
  have h1 : resolveTemperature (TempRaw.str s) = 7 / 10 := by
    show (match parseFloat? s with
      | none => clampTemp (7 / 10)
      | some v => clampJs v : ℚ) = 7 / 10
    rw [hs]
    show clampTemp (7 / 10) = 7 / 10
    norm_num [clampTemp]
  refine ⟨h1, ?_, ?_, ?_⟩
  · have hred : handlePost (some b) =
        (if (!validateBody b) = true then PostResult.invalidBody
         else if (!(b.models.filter isEmbeddingModel).isEmpty) = true then
           PostResult.embeddingRejected (b.models.filter isEmbeddingModel)
         else PostResult.streamResponse b.models (resolveTemperature b.temperature)) :=
      rfl
    rw [hred, if_neg (by simp [hv]), if_neg (by simp [he]), hb, h1]
  · intro s' q hp
    show (match parseFloat? s' with
      | none => clampTemp (7 / 10)
      | some v => clampJs v : ℚ) = clampTemp q
    rw [hp]
    rfl
  · decide

/-- C10: the shared writer is a no-op once the response has ended — an
`oWrite` after close changes nothing (the enqueue failure is swallowed),
a whole scheduling step after close never changes the response body or
reopens it, and the queues of all other workers are left untouched, so a
late writer can affect neither the response nor any sibling worker. -/
theorem c10_write_after_close_dropped (s : OrchState) (e : SEvent) (i j : Nat)
    (h : s.ended = true) (hij : i ≠ j) :
    oWrite s e = s ∧
    (orchStep s i).out = s.out ∧
    (orchStep s i).ended = true ∧
    (orchStep s i).queues.get? j = s.queues.get? j :=
  ⟨oWrite_ended s e h, (orchStep_ended_out s i h).1, (orchStep_ended_out s i h).2,
   orchStep_queues_other s i j hij⟩

/-! ## Witnesses -/

theorem c1_witness :
    (orchRun (fun _ => none) ["a", "b"] "hi" 1
      [UpstreamResult.fail "x", UpstreamResult.fail "y"]
      [FallbackResult.fail "f", FallbackResult.fail "g"] [0, 0, 1, 1]).out.countP
      (termFor "a") = (["a", "b"] : List String).count "a" ∧
    (orchRun (fun _ => none) ["a", "b"] "hi" 1
      [UpstreamResult.fail "x", UpstreamResult.fail "y"]
      [FallbackResult.fail "f", FallbackResult.fail "g"] [0, 0, 1, 1]).out.countP
      isEndB = 1 :=
  have h := c1_merged_stream_invariant (fun _ => none) ["a", "b"] "hi" 1
    [UpstreamResult.fail "x", UpstreamResult.fail "y"]
    [FallbackResult.fail "f", FallbackResult.fail "g"] [0, 0, 1, 1] rfl rfl (by decide)
  ⟨h.2.2.2.1 "a", h.2.2.2.2.1⟩

theorem c2_witness :
    (streamOneModel (fun _ => none) "a" "hi" 1 (.ok []) (.ok "ok" none)).calls =
      [⟨"hi", 1, true⟩, ⟨"hi", 1, false⟩] ∧
    (streamOneModel (fun _ => none) "a" "hi" 1 (.ok []) (.ok "ok" none)).events.countP
      ttfbB = 1 ∧
    (streamOneModel (fun _ => none) "a" "hi" 1 (.ok []) (.ok "ok" none)).events.countP
      deltaB = 1 ∧
    (streamOneModel (fun _ => none) "a" "hi" 1 (.ok []) (.ok "ok" none)).events.countP
      mdB = 1 ∧
    (streamOneModel (fun _ => none) "a" "hi" 1 (.ok []) (.ok "ok" none)).events.countP
      errB = 0 :=
  have h := c2_amended_fallback (fun _ => none) "a" "hi" 1 [] (.ok "ok" none) (by decide)
  have h2 := (h.2 (by decide)).2 "ok" none rfl (by decide)
  ⟨h.1, h2.1, h2.2.1, h2.2.2.1, h2.2.2.2⟩

theorem c3_witness :
    (streamOneModel (fun _ => none) "a" "hi" 1 (.fail "boom") (.fail "f")).events =
      [SEvent.modelStart "a", SEvent.errorEvt "a" "boom" 1] ∧
    (orchRun (fun _ => none) ["a", "b"] "hi" 1
      [UpstreamResult.fail "boom", UpstreamResult.ok []]
      [FallbackResult.fail "f", FallbackResult.ok "t" none]
      [0, 0, 1, 1, 1, 1]).out.countP (termFor "b") =
      (["a", "b"] : List String).count "b" :=
  have h := c3_upstream_failure_isolated (fun _ => none) ["a", "b"] "hi" 1
    [UpstreamResult.fail "boom", UpstreamResult.ok []]
    [FallbackResult.fail "f", FallbackResult.ok "t" none]
    [0, 0, 1, 1, 1, 1] "a" "boom" (.fail "f") rfl rfl (by decide)
  ⟨h.1, h.2.2 "b"⟩

theorem c6_witness :
    ((contentOf clientInit "a").length ≤
      (contentOf (applyClientEvent clientInit SEvent.ping) "a").length) ∧
    contentOf ([SEvent.delta "a" "hi"].foldl applyClientEvent clientInit) "a" =
      contentOf clientInit "a" ++ strConcat (deltaTexts "a" [SEvent.delta "a" "hi"]) ∧
    contentOf (clientRun (fun _ => none) ["x\n"]) "a" =
      strConcat (lineDeltas (fun _ => none) "a" (lineSplit (concatChunks ["x\n"])).1) :=
  have h := c6_client_content_append_only (fun _ => none) clientInit SEvent.ping "a"
    ["x\n"] (by decide)
  ⟨h.1, h.2.1 [SEvent.delta "a" "hi"], h.2.2⟩

theorem c7_witness :
    resolveTemperature (TempRaw.num 3) = 2 ∧
    0 ≤ resolveTemperature (TempRaw.num 3) :=
  have h := c7_temperature_clamped ⟨"hi", ["a"], TempRaw.num 3⟩ ["a"]
    (resolveTemperature (TempRaw.num 3)) (by decide)
  ⟨h.2.2.2.1, h.2.1.1⟩

theorem c8_witness :
    httpStatus (handlePost (some ⟨"hi", ["text-embed-3"], TempRaw.absent⟩)) = 400 ∧
    ¬ handlePost (some ⟨"hi", ["text-embed-3"], TempRaw.absent⟩) =
      PostResult.streamResponse ["text-embed-3"] (7 / 10) :=
  have h := c8_embedding_rejected_before_stream
    ⟨"hi", ["text-embed-3"], TempRaw.absent⟩ "text-embed-3" (by decide) (by decide)
  ⟨h.1, h.2 ["text-embed-3"] (7 / 10)⟩

theorem c9_witness :
    resolveTemperature (TempRaw.str "abc") = 7 / 10 ∧
    handlePost (some ⟨"hi", ["m"], TempRaw.str "abc"⟩) =
      PostResult.streamResponse ["m"] (7 / 10) :=
  have h := c9_string_temperature_default "abc" ⟨"hi", ["m"], TempRaw.str "abc"⟩
    (by decide) rfl (by decide) (by decide)
  ⟨h.1, h.2.1⟩

theorem c10_witness :
    oWrite ⟨[[SEvent.ping]], [], true, 0⟩ SEvent.ping =
      (⟨[[SEvent.ping]], [], true, 0⟩ : OrchState) ∧
    (orchStep ⟨[[SEvent.ping]], [], true, 0⟩ 0).out =
      (⟨[[SEvent.ping]], [], true, 0⟩ : OrchState).out ∧
    (orchStep ⟨[[SEvent.ping]], [], true, 0⟩ 0).ended = true ∧
    (orchStep ⟨[[SEvent.ping]], [], true, 0⟩ 0).queues.get? 1 =
      (⟨[[SEvent.ping]], [], true, 0⟩ : OrchState).queues.get? 1 :=
  c10_write_after_close_dropped ⟨[[SEvent.ping]], [], true, 0⟩ SEvent.ping 0 1 rfl
    (by decide)

end LlmWars
